import Mathlib

/-!
Shallow embedding of the core of the `hmm` journaling tool: the byte-level
cursor primitives of `src/seek.rs`, their private twins in `src/bsearch.rs`,
the prefix binary search of `src/bsearch.rs`, and the entry cursor of
`src/entries.rs`.

A file is a list of bytes (`List Nat`, line feed = 10) and a stream is a file
together with a current position; since every function threads the position
explicitly, functions take the byte list and the position and return their
result together with the final position.  `read_exact` of one byte at
position `p` is `d[p]?`: `some b` reads the byte and advances the stream,
`none` is `ErrorKind::UnexpectedEof` with the position unchanged, exactly the
behaviour of `std::io::Cursor` over an in-memory buffer.  Fallible routines
return `Option`/`Except` with the error case mirroring the propagated
`std::io::Error`.
-/

set_option autoImplicit false

namespace Hmm

/-- The backward scan loop of `seek.rs::start_of_current_line` (lines 78-103):
starting at `pos`, read the byte at `pos`; a line feed means the line starts
just after it, reaching position 0 means the line starts at 0, otherwise step
back one byte.  Returns (result, final stream position); the source seeks to
the offset it returns, so the two components agree at every return. -/
def soclScan (d : List Nat) : Nat → Nat × Nat
  | 0 => (0, 0)
  | p + 1 => if d[p + 1]? = some 10 then (p + 2, p + 2) else soclScan d p

/-- `seek.rs::start_of_current_line` (lines 53-104): read the byte under the
cursor (EOF leaves the zero-initialised buffer, which is not a line feed);
if it is a line feed back up one byte first (position 0 returns 0
immediately), then run the backward scan. -/
def start_of_current_line (d : List Nat) (pos : Nat) : Nat × Nat :=
  if d[pos]? = some 10 then
    if pos = 0 then (0, 0) else soclScan d (pos - 1)
  else soclScan d pos

/-- The backward scan loop of `seek.rs::start_of_prev_line` (lines 37-50):
at position `p+1` the source decrements to `p`, reads the byte there (an EOF
error is propagated, hence the outer `Option`), returns `p+1` on a line feed
and loops otherwise; position 0 returns 0. -/
def soplScan (d : List Nat) : Nat → Option (Nat × Nat)
  | 0 => some (0, 0)
  | p + 1 =>
    match d[p]? with
    | none => none
    | some b => if b = 10 then some (p + 1, p + 1) else soplScan d p

/-- `seek.rs::start_of_prev_line` (lines 24-51): normalise to the start of
the current line; at offset 0 return `none` (no previous line), otherwise
scan backward from one byte before the line start.  The outer `Option` is an
I/O error, the inner one the source's `Option<u64>`; the second component is
the final stream position. -/
def start_of_prev_line (d : List Nat) (pos : Nat) : Option (Option Nat × Nat) :=
  let c := (start_of_current_line d pos).1
  if c = 0 then some (none, 0)
  else
    match soplScan d (c - 1) with
    | none => none
    | some (r, fp) => some (some r, fp)

/-- The forward scan loop of `seek.rs::start_of_next_line` (lines 8-21),
driven by the number of bytes remaining before end-of-file (the loop stops
exactly when a read past the end fails): read the byte at `pos`; a line feed
returns `pos + 1`, EOF returns `none` with the position unchanged. -/
def snlGo (d : List Nat) : Nat → Nat → Option Nat × Nat
  | 0, pos => (none, pos)
  | k + 1, pos =>
    match d[pos]? with
    | none => (none, pos)
    | some b => if b = 10 then (some (pos + 1), pos + 1) else snlGo d k (pos + 1)

/-- `seek.rs::start_of_next_line` (lines 4-22). -/
def start_of_next_line (d : List Nat) (pos : Nat) : Option Nat × Nat :=
  snlGo d (d.length - pos) pos

/-- Twin of `soclScan` for `bsearch.rs::seek_start_of_current_line`
(lines 212-237), which is a verbatim copy of the loop in `seek.rs`. -/
def bSoclScan (d : List Nat) : Nat → Nat × Nat
  | 0 => (0, 0)
  | p + 1 => if d[p + 1]? = some 10 then (p + 2, p + 2) else bSoclScan d p

/-- `bsearch.rs::seek_start_of_current_line` (lines 187-238), a verbatim copy
of `seek.rs::start_of_current_line`. -/
def seek_start_of_current_line (d : List Nat) (pos : Nat) : Nat × Nat :=
  if d[pos]? = some 10 then
    if pos = 0 then (0, 0) else bSoclScan d (pos - 1)
  else bSoclScan d pos

/-- Twin of `soplScan` for `bsearch.rs::seek_start_of_prev_line`
(lines 171-184). -/
def bSoplScan (d : List Nat) : Nat → Option (Nat × Nat)
  | 0 => some (0, 0)
  | p + 1 =>
    match d[p]? with
    | none => none
    | some b => if b = 10 then some (p + 1, p + 1) else bSoplScan d p

/-- `bsearch.rs::seek_start_of_prev_line` (lines 158-185), a verbatim copy of
`seek.rs::start_of_prev_line`. -/
def seek_start_of_prev_line (d : List Nat) (pos : Nat) : Option (Option Nat × Nat) :=
  let c := (seek_start_of_current_line d pos).1
  if c = 0 then some (none, 0)
  else
    match bSoplScan d (c - 1) with
    | none => none
    | some (r, fp) => some (some r, fp)

/-- Twin of `snlGo` for `bsearch.rs::seek_start_of_next_line`
(lines 138-156). -/
def bSnlGo (d : List Nat) : Nat → Nat → Option Nat × Nat
  | 0, pos => (none, pos)
  | k + 1, pos =>
    match d[pos]? with
    | none => (none, pos)
    | some b => if b = 10 then (some (pos + 1), pos + 1) else bSnlGo d k (pos + 1)

/-- `bsearch.rs::seek_start_of_next_line` (lines 138-156), a verbatim copy of
`seek.rs::start_of_next_line`. -/
def seek_start_of_next_line (d : List Nat) (pos : Nat) : Option Nat × Nat :=
  bSnlGo d (d.length - pos) pos

/-- A decoded record (`src/entry.rs::Entry`): the parsed timestamp is
abstracted to a `Nat` whose order agrees with chronological order, the
message is kept as bytes. -/
structure Entry where
  datetime : Nat
  message : List Nat
  deriving DecidableEq, Repr

/-- A decoder `List Nat → Except Unit Entry` stands for the entry codec that
`entries.rs::next_entry` invokes on the line it has read
(`quick_csv::Csv::from_reader` + `Entry::try_from`, backed by the external
`quick_csv`, `chrono` and `serde_json` crates; the spec treats the codec as
an external collaborator).  All statements about the entry cursor are
universally quantified over the decoder. -/
def Decoder : Type := List Nat → Except Unit Entry

/-- The `read_line` call in `entries.rs::next_entry`
(`std::io::BufRead::read_line`): collect bytes from `pos` up to and including
the first line feed, or up to end-of-file; driven by the number of bytes
remaining, the loop stops exactly when the underlying buffer is exhausted.
Returns the line read and the final stream position. -/
def rlGo (d : List Nat) : Nat → Nat → List Nat × Nat
  | 0, pos => ([], pos)
  | k + 1, pos =>
    match d[pos]? with
    | none => ([], pos)
    | some b =>
      if b = 10 then ([10], pos + 1)
      else
        let r := rlGo d k (pos + 1)
        (b :: r.1, r.2)

/-- `read_line` from position `pos`. -/
def read_line (d : List Nat) (pos : Nat) : List Nat × Nat :=
  rlGo d (d.length - pos) pos

/-- `entries.rs::len` (lines 20-25): the stream length; the three seeks
restore the stream position, so it is returned unchanged. -/
def elen (d : List Nat) (pos : Nat) : Nat × Nat :=
  (d.length, pos)

/-- `entries.rs::next_entry` (lines 55-74): read a line into the (cleared)
buffer; an empty read means end-of-file, in which case the source seeks to
`SeekFrom::End(1)` — one byte past end-of-file — and returns `None`;
otherwise decode the line. -/
def next_entry (decode : Decoder) (d : List Nat) (pos : Nat) :
    Except Unit (Option Entry × Nat) :=
  let r := read_line d pos
  if r.1 = [] then .ok (none, d.length + 1)
  else
    match decode r.1 with
    | .error e => .error e
    | .ok ent => .ok (some ent, r.2)

/-- `entries.rs::prev_entry` (lines 82-100): if the cursor is not past
end-of-file, first back up to the start of the line that was just read; then
back up once more to the previous line: `None` there means there is no
previous entry, otherwise read it with `next_entry`. -/
def prev_entry (decode : Decoder) (d : List Nat) (pos : Nat) :
    Except Unit (Option Entry × Nat) :=
  let step1 : Option (Option Nat × Nat) :=
    if pos ≤ (elen d pos).1 then start_of_prev_line d pos else some (none, pos)
  match step1 with
  | none => .error ()
  | some (_, pos1) =>
    match start_of_prev_line d pos1 with
    | none => .error ()
    | some (none, pos2) => .ok (none, pos2)
    | some (some _, pos2) => next_entry decode d pos2

/-- `entries.rs::at` (lines 31-39): positions past `len()` yield `None` with
the stream untouched; otherwise seek to `p`, snap to the start of the current
line and read it. -/
def entry_at (decode : Decoder) (d : List Nat) (p : Nat) (pos : Nat) :
    Except Unit (Option Entry × Nat) :=
  if p > (elen d pos).1 then .ok (none, pos)
  else next_entry decode d (start_of_current_line d p).1

/-- `entries.rs::seek_to_end` (lines 41-45): `at(len())`, discarding the
entry.  Returns the final stream position. -/
def seek_to_end (decode : Decoder) (d : List Nat) (pos : Nat) : Except Unit Nat :=
  match entry_at decode d (elen d pos).1 pos with
  | .error e => .error e
  | .ok (_, p') => .ok p'

/-- Modelled from the `rand` crate's documented contract (an external
dependency, out of the spec's scope): `Uniform::new(low, high)` panics when
`low >= high` (modelled as `none`) and otherwise samples uniformly from
`[low, high)`; the sampled value is passed in explicitly as `draw`. -/
def uniformNew (lo hi : Nat) : Option Unit :=
  if lo < hi then some () else none

/-- `entries.rs::rand_entry` (lines 76-80): build a uniform sampler over
`[0, len())` — which panics on an empty file — draw an offset and look it up
with `at`. -/
def rand_entry (decode : Decoder) (draw : Nat) (d : List Nat) (pos : Nat) :
    Option (Except Unit (Option Entry × Nat)) :=
  match uniformNew 0 (elen d pos).1 with
  | none => none
  | some _ => some (entry_at decode d draw pos)

/-- `u64` wrapping subtraction (the behaviour of `cur - 1` in a release
build); `entries.rs::seek_to_first` computes `end = cur - 1` without guarding
against `cur == 0`. -/
def wsub64 (a b : Nat) : Nat :=
  (a + 2 ^ 64 - b) % 2 ^ 64

/-- The binary-search loop of `entries.rs::seek_to_first` (lines 107-125),
with explicit fuel (the modelling artifact for the source's `while`; every
theorem supplies enough fuel for the executions it describes, and exhaustion
is reported as an error).  Returns the final `end` and stream position. -/
def stfLoop (decode : Decoder) (d : List Nat) (date : Nat) :
    Nat → Nat → Nat → Nat → Except Unit (Nat × Nat)
  | 0, _, _, _ => .error ()
  | fuel + 1, start, endv, sp =>
    if start < endv then
      let cur := start + (endv - start) / 2
      match entry_at decode d cur sp with
      | .error e => .error e
      | .ok (none, sp') => .ok (endv, sp')
      | .ok (some ent, sp') =>
        if date ≤ ent.datetime then stfLoop decode d date fuel start (wsub64 cur 1) sp'
        else stfLoop decode d date fuel (cur + 1) endv sp'
    else .ok (endv, sp)

/-- The fix-up loop of `entries.rs::seek_to_first` (lines 149-158): step
backward until an entry earlier than the requested date (or the file start)
is reached. -/
def stfFixup (decode : Decoder) (d : List Nat) (date : Nat) :
    Nat → Nat → Except Unit Nat
  | 0, _ => .error ()
  | fuel + 1, sp =>
    match prev_entry decode d sp with
    | .error e => .error e
    | .ok (none, sp') => .ok sp'
    | .ok (some ent, sp') =>
      if ent.datetime < date then .ok sp' else stfFixup decode d date fuel sp'

/-- `entries.rs::seek_to_first` (lines 102-161): binary search by decoded
timestamp over byte offsets; if the loop exits with `end >= file_size` return
with the cursor where it is, otherwise move one entry forward and then walk
backward to the first entry at or after `date`.  Returns the final stream
position. -/
def seek_to_first (decode : Decoder) (d : List Nat) (date : Nat) (fuel : Nat) :
    Except Unit Nat :=
  let file_size := d.length
  match stfLoop decode d date fuel 0 file_size 0 with
  | .error e => .error e
  | .ok (endv, sp1) =>
    if file_size ≤ endv then .ok sp1
    else
      match next_entry decode d sp1 with
      | .error e => .error e
      | .ok (_, sp2) => stfFixup decode d date fuel sp2

/-- `bsearch.rs::SeekType` (lines 5-12). -/
inductive SeekType where
  | FirstGreaterThan
  | LastLessThan
  deriving DecidableEq, Repr

/-- Lexicographic byte comparison, the `Ord` instance Rust uses for
`bytes.cmp(&buf)` on byte slices: elementwise, with the shorter slice
ordered first on a tie. -/
def compareBytes : List Nat → List Nat → Ordering
  | [], [] => .eq
  | [], _ :: _ => .lt
  | _ :: _, [] => .gt
  | a :: as, b :: bs =>
    if a < b then .lt else if b < a then .gt else compareBytes as bs

/-- `read_exact` of `n` bytes at position `p`: succeeds exactly when `n`
bytes remain, leaving the stream at `p + n`; on `UnexpectedEof` nothing is
consumed. -/
def readN (d : List Nat) (p n : Nat) : Option (List Nat) :=
  if p + n ≤ d.length then some ((d.drop p).take n) else none

/-- The `SeekType::FirstGreaterThan` arm of the duplicate-resolution loop in
`bsearch.rs::seek` (lines 66-93), entered on an exact prefix match with the
stream at `ls + q.length`: if the matched line starts at 0 return 0; back up
to the previous line (`None` there returns 0), read a prefix there (the
source propagates any read error with `?`), and return the current line
start once the query is strictly greater than the neighbour, else keep
walking back.  `fuel` bounds the walk (the source's loop; enough fuel is
supplied in every theorem). -/
def walkFirst (d q : List Nat) : Nat → Nat → Option (Except Unit (Option Nat))
  | 0, _ => none
  | fuel + 1, ls =>
    if ls = 0 then some (.ok (some 0))
    else
      match seek_start_of_prev_line d (ls + q.length) with
      | none => some (.error ())
      | some (none, _) => some (.ok (some 0))
      | some (some ns, _) =>
        match readN d ns q.length with
        | none => some (.error ())
        | some buf =>
          match compareBytes q buf with
          | .gt => some (.ok (some ls))
          | _ => walkFirst d q fuel ns

/-- The `SeekType::LastLessThan` arm of the duplicate-resolution loop in
`bsearch.rs::seek` (lines 94-116): move to the next line (`None` returns the
current line start), read a prefix there (`UnexpectedEof` also returns the
current line start), and return the current line start once the query is
strictly less than the neighbour, else keep walking forward.  The
`line_start == 0` check sits at the top of the source loop before the
`seek_type` match, so it applies to this arm as well. -/
def walkLast (d q : List Nat) : Nat → Nat → Option (Except Unit (Option Nat))
  | 0, _ => none
  | fuel + 1, ls =>
    if ls = 0 then some (.ok (some 0))
    else
      match (seek_start_of_next_line d (ls + q.length)).1 with
      | none => some (.ok (some ls))
      | some ns =>
        match readN d ns q.length with
        | none => some (.ok (some ls))
        | some buf =>
          match compareBytes q buf with
          | .lt => some (.ok (some ls))
          | _ => walkLast d q fuel ns

/-- The binary-search loop of `bsearch.rs::seek` (lines 30-123): on each
probe snap `cur` to its line start, read a query-length prefix (EOF returns
`Ok(None)` for the whole search), and compare.  `inl r` is an early return
with result `r`; `inr (endv, sp)` falls through to the post-loop dispatch
with the final `end` and stream position. -/
def seekLoop (d q : List Nat) (st : SeekType) :
    Nat → Nat → Nat → Nat → Option (Except Unit (Sum (Option Nat) (Nat × Nat)))
  | 0, _, _, _ => none
  | fuel + 1, start, endv, sp =>
    if endv ≤ start then some (.ok (.inr (endv, sp)))
    else
      let cur := start + (endv - start) / 2
      let ls := (seek_start_of_current_line d cur).1
      match readN d ls q.length with
      | none => some (.ok (.inl none))
      | some buf =>
        match compareBytes q buf with
        | .lt =>
          if cur = 0 then some (.ok (.inr (cur, ls + q.length)))
          else seekLoop d q st fuel start (cur - 1) (ls + q.length)
        | .eq =>
          let w : Option (Except Unit (Option Nat)) :=
            match st with
            | .FirstGreaterThan => walkFirst d q (fuel + 1) ls
            | .LastLessThan => walkLast d q (fuel + 1) ls
          w.map (fun r => r.map Sum.inl)
        | .gt => seekLoop d q st fuel (cur + 1) endv (ls + q.length)

/-- `bsearch.rs::seek` (lines 23-136): `end` starts at the file length,
`start` and the stream at 0; after the loop, dispatch on the seek type and
the final `end`: `FirstGreaterThan` returns 0 when `end = 0` and `None`
otherwise, `LastLessThan` returns `None` when `end = 0` and otherwise the
start of the line containing the final stream position.  The fuel
`2 * d.length + 2` bounds the loop and the duplicate-resolution walk: each
iteration shrinks `end - start`, which begins at the file length, and the
walk visits at most one line per byte. -/
def seek (d q : List Nat) (st : SeekType) : Option (Except Unit (Option Nat)) :=
  match seekLoop d q st (2 * d.length + 2) 0 d.length 0 with
  | none => none
  | some (.error e) => some (.error e)
  | some (.ok (.inl r)) => some (.ok r)
  | some (.ok (.inr (endv, sp))) =>
    match st, endv with
    | .FirstGreaterThan, 0 => some (.ok (some 0))
    | .FirstGreaterThan, _ => some (.ok none)
    | .LastLessThan, 0 => some (.ok none)
    | .LastLessThan, _ => some (.ok (some (seek_start_of_current_line d sp).1))

/-- Iterated `next_entry`: collect entries until `none` (the claims' "repeat
until none"); `fuel` bounds the number of calls and exhaustion is an error
(every theorem supplies enough fuel for the run it describes). -/
def iterNext (decode : Decoder) (d : List Nat) : Nat → Nat → Except Unit (List Entry × Nat)
  | 0, _ => .error ()
  | fuel + 1, pos =>
    match next_entry decode d pos with
    | .error e => .error e
    | .ok (none, p') => .ok ([], p')
    | .ok (some e, p') =>
      match iterNext decode d fuel p' with
      | .error e2 => .error e2
      | .ok (es, pf) => .ok (e :: es, pf)

/-- Iterated `prev_entry`: collect entries until `none`. -/
def iterPrev (decode : Decoder) (d : List Nat) : Nat → Nat → Except Unit (List Entry × Nat)
  | 0, _ => .error ()
  | fuel + 1, pos =>
    match prev_entry decode d pos with
    | .error e => .error e
    | .ok (none, p') => .ok ([], p')
    | .ok (some e, p') =>
      match iterPrev decode d fuel p' with
      | .error e2 => .error e2
      | .ok (es, pf) => .ok (e :: es, pf)

/-- The file built from a list of newline-terminated records: each element is
the content of one line (its bytes before the terminating line feed). -/
def encodeF : List (List Nat) → List Nat
  | [] => []
  | l :: ls => l ++ 10 :: encodeF ls

/-- Well-formed record lines: non-empty and free of line feeds. -/
def wfLines (cs : List (List Nat)) : Prop :=
  ∀ l ∈ cs, l ≠ [] ∧ 10 ∉ l

instance (cs : List (List Nat)) : Decidable (wfLines cs) := by
  unfold wfLines
  infer_instance

/-- A simple concrete decoder for witnesses and counterexamples: every line
decodes to an entry with the given timestamp whose message is the raw
line. -/
def decodeK (n : Nat) : Decoder := fun l => .ok ⟨n, l⟩

/-- The prefix of a line that the binary search compares: its first
`q.length` bytes. -/
def qpref (q l : List Nat) : List Nat := l.take q.length

/-- The sortedness invariant the spec requires of the file: the compared
prefixes are pairwise non-decreasing in file order. -/
def sortedByPref (q : List Nat) (cs : List (List Nat)) : Prop :=
  List.Pairwise (fun a b => compareBytes (qpref q a) (qpref q b) ≠ Ordering.gt) cs

/-- Well-formedness for the prefix search: a non-empty query, full lines
that are line-feed-free and at least as long as the query, and an optional
unterminated tail shorter than the query. -/
def wfSearch (q : List Nat) (cs : List (List Nat)) (tail : List Nat) : Prop :=
  1 ≤ q.length ∧ (∀ l ∈ cs, 10 ∉ l ∧ q.length ≤ l.length) ∧
    10 ∉ tail ∧ tail.length < q.length

instance (q : List Nat) (cs : List (List Nat)) : Decidable (sortedByPref q cs) := by
  unfold sortedByPref
  infer_instance

instance (q : List Nat) (cs : List (List Nat)) (tail : List Nat) :
    Decidable (wfSearch q cs tail) := by
  unfold wfSearch
  infer_instance

/-! ### Line starts

`lineStartAt d s` says that offset `s` begins a line of `d` in the usual
sense: the file start, or any offset immediately after a line feed.
`lineStartSkip0 d s` is the variant the code actually computes: the backward
scan of `start_of_current_line` tests positions `pos, pos-1, …, 1` for a
line feed but returns 0 without ever testing position 0, so a line feed at
offset 0 is not treated as a line terminator. -/

def lineStartAt (d : List Nat) (s : Nat) : Prop :=
  s = 0 ∨ (1 ≤ s ∧ d[s - 1]? = some 10)

def lineStartSkip0 (d : List Nat) (s : Nat) : Prop :=
  s = 0 ∨ (2 ≤ s ∧ d[s - 1]? = some 10)

instance (d : List Nat) (s : Nat) : Decidable (lineStartAt d s) := by
  unfold lineStartAt; infer_instance

instance (d : List Nat) (s : Nat) : Decidable (lineStartSkip0 d s) := by
  unfold lineStartSkip0; infer_instance

theorem getElem?_some_lt {d : List Nat} {i b : Nat} (h : d[i]? = some b) :
    i < d.length := by
  by_contra hcon
  push_neg at hcon
  rw [List.getElem?_eq_none hcon] at h
  cases h

theorem lineStartSkip0_le_length {d : List Nat} {s : Nat} (h : lineStartSkip0 d s) :
    s ≤ d.length := by
  rcases h with h | ⟨h1, h2⟩
  · omega
  · have := getElem?_some_lt h2
    omega

theorem lineStartAt_le_length {d : List Nat} {s : Nat} (h : lineStartAt d s) :
    s ≤ d.length := by
  rcases h with h | ⟨h1, h2⟩
  · omega
  · have := getElem?_some_lt h2
    omega

/-- Unfolding equation for `start_of_prev_line` with the `let` reduced. -/
theorem start_of_prev_line_def (d : List Nat) (pos : Nat) :
    start_of_prev_line d pos =
      (if (start_of_current_line d pos).1 = 0 then some (none, 0)
       else
         match soplScan d ((start_of_current_line d pos).1 - 1) with
         | none => none
         | some (r, fp) => some (some r, fp)) := rfl

/-- Unfolding equation for `seek_start_of_prev_line` with the `let`
reduced. -/
theorem seek_start_of_prev_line_def (d : List Nat) (pos : Nat) :
    seek_start_of_prev_line d pos =
      (if (seek_start_of_current_line d pos).1 = 0 then some (none, 0)
       else
         match bSoplScan d ((seek_start_of_current_line d pos).1 - 1) with
         | none => none
         | some (r, fp) => some (some r, fp)) := rfl

theorem soclScan_snd_eq_fst (d : List Nat) : ∀ p, (soclScan d p).2 = (soclScan d p).1 := by
  intro p
  induction p with
  | zero => simp [soclScan]
  | succ n ih =>
    simp only [soclScan]
    split
    · rfl
    · exact ih

theorem soclScan_lineStart (d : List Nat) : ∀ p, lineStartSkip0 d (soclScan d p).1 := by
  intro p
  induction p with
  | zero => exact Or.inl rfl
  | succ n ih =>
    simp only [soclScan]
    split
    · rename_i h
      exact Or.inr ⟨by omega, by simpa using h⟩
    · exact ih

theorem soclScan_le (d : List Nat) : ∀ p, (soclScan d p).1 ≤ p + 1 := by
  intro p
  induction p with
  | zero => simp [soclScan]
  | succ n ih =>
    simp only [soclScan]
    split
    · omega
    · omega

theorem soclScan_max (d : List Nat) :
    ∀ p t, lineStartSkip0 d t → t ≤ p + 1 → t ≤ (soclScan d p).1 := by
  intro p
  induction p with
  | zero =>
    intro t ht hle
    rcases ht with h | ⟨h1, _⟩
    · simp [soclScan, h]
    · omega
  | succ n ih =>
    intro t ht hle
    simp only [soclScan]
    split
    · omega
    · rename_i hne
      rcases Nat.lt_or_ge t (n + 2) with hlt | hge
      · exact ih t ht (by omega)
      · exfalso
        have ht2 : t = n + 2 := by omega
        rcases ht with h | ⟨_, h2⟩
        · omega
        · have hidx : t - 1 = n + 1 := by omega
          rw [hidx] at h2
          exact hne h2

/-- **C6 (amended).** `start_of_current_line` computes the greatest line
start at or before the given position — where a line feed at offset 0 is not
treated as a line terminator (`lineStartSkip0`), and where a position sitting
exactly on a line feed counts as belonging to the line that line feed
terminates (the returned start is still at or before the position, and the
line feed itself only ever contributes the start `pos + 1 > pos`, so it is
backed over).  Consequently a position at or past end-of-file yields the
greatest line start of the whole file, the empty file yields 0, and the
stream is left at the returned offset. -/
theorem start_of_current_line_characterisation (d : List Nat) (pos : Nat) :
    (start_of_current_line d pos).2 = (start_of_current_line d pos).1 ∧
    lineStartSkip0 d (start_of_current_line d pos).1 ∧
    (start_of_current_line d pos).1 ≤ pos ∧
    (∀ t, lineStartSkip0 d t → t ≤ pos → t ≤ (start_of_current_line d pos).1) ∧
    (d.length ≤ pos → ∀ t, lineStartSkip0 d t → t ≤ (start_of_current_line d pos).1) ∧
    (d = [] → (start_of_current_line d pos).1 = 0) := by
  have hmain :
      (start_of_current_line d pos).2 = (start_of_current_line d pos).1 ∧
      lineStartSkip0 d (start_of_current_line d pos).1 ∧
      (start_of_current_line d pos).1 ≤ pos ∧
      (∀ t, lineStartSkip0 d t → t ≤ pos → t ≤ (start_of_current_line d pos).1) := by
    unfold start_of_current_line
    split
    · rename_i hnl
      split
      · rename_i hz
        subst hz
        refine ⟨rfl, Or.inl rfl, le_refl _, ?_⟩
        intro t _ ht
        omega
      · rename_i hz
        refine ⟨soclScan_snd_eq_fst d _, soclScan_lineStart d _, ?_, ?_⟩
        · have := soclScan_le d (pos - 1)
          omega
        · intro t ht hle
          exact soclScan_max d (pos - 1) t ht (by omega)
    · rename_i hnl
      refine ⟨soclScan_snd_eq_fst d _, soclScan_lineStart d _, ?_, ?_⟩
      · rcases Nat.eq_zero_or_pos pos with hz | hp
        · subst hz; simp [soclScan]
        · obtain ⟨m, rfl⟩ : ∃ m, pos = m + 1 := ⟨pos - 1, by omega⟩
          have hle := soclScan_le d m
          simp only [soclScan]
          split
          · rename_i h; exact absurd h hnl
          · omega
      · intro t ht hle
        exact soclScan_max d pos t ht (by omega)
  refine ⟨hmain.1, hmain.2.1, hmain.2.2.1, hmain.2.2.2, ?_, ?_⟩
  · intro hlen t ht
    exact hmain.2.2.2 t ht (le_trans (lineStartSkip0_le_length ht) hlen)
  · intro hd
    have h1 := hmain.2.1
    subst hd
    rcases h1 with h | ⟨_, h2⟩
    · exact h
    · simp at h2

/-- **C6, counterexample to the claim as stated.**  In the file `"\na"` the
line containing position 1 starts at offset 1 (the line feed at offset 0
terminates an empty first line, so 1 is a line start), but
`start_of_current_line` returns 0: a line feed at offset 0 is never examined
by the backward scan. -/
theorem start_of_current_line_skips_offset_zero_newline :
    (start_of_current_line [10, 97] 1).1 = 0 ∧
    lineStartAt [10, 97] 1 ∧
    ¬(1 ≤ (start_of_current_line [10, 97] 1).1) := by
  decide

theorem soplScan_char (d : List Nat) :
    ∀ p, p ≤ d.length →
      ∃ r, soplScan d p = some (r, r) ∧ lineStartAt d r ∧ r ≤ p ∧
        (∀ t, lineStartAt d t → t ≤ p → t ≤ r) := by
  intro p
  induction p with
  | zero =>
    intro _
    exact ⟨0, rfl, Or.inl rfl, le_refl _, fun t _ ht => ht⟩
  | succ n ih =>
    intro hlen
    have hb : ∃ b, d[n]? = some b := by
      have : n < d.length := by omega
      exact ⟨d[n], List.getElem?_eq_some_iff.mpr ⟨this, rfl⟩⟩
    obtain ⟨b, hb⟩ := hb
    by_cases h10 : b = 10
    · subst h10
      refine ⟨n + 1, ?_, Or.inr ⟨by omega, by simpa using hb⟩, le_refl _, ?_⟩
      · simp [soplScan, hb]
      · intro t _ ht; omega
    · obtain ⟨r, hr, hls, hle, hmax⟩ := ih (by omega)
      refine ⟨r, ?_, hls, by omega, ?_⟩
      · simp only [soplScan, hb]
        rw [if_neg h10]
        exact hr
      · intro t ht htle
        rcases Nat.lt_or_ge t (n + 1) with hlt | hge
        · exact hmax t ht (by omega)
        · exfalso
          have : t = n + 1 := by omega
          subst this
          rcases ht with h | ⟨_, h2⟩
          · omega
          · simp only [Nat.add_sub_cancel] at h2
            rw [hb] at h2
            exact h10 (by injection h2)

/-- **C7 (amended).**  `start_of_prev_line` never fails, and it returns
`none` exactly when the start of the current line (as computed by
`start_of_current_line`) is offset 0 — that is, for every position inside the
first line, not only for position 0 itself.  When it returns `some r`, `r`
is the greatest true line start strictly before the current line's start and
the stream is left at `r`. -/
theorem start_of_prev_line_characterisation (d : List Nat) (pos : Nat) :
    ∃ pr, start_of_prev_line d pos = some pr ∧
      (pr.1 = none ↔ (start_of_current_line d pos).1 = 0) ∧
      (∀ r, pr.1 = some r → pr.2 = r ∧ lineStartAt d r ∧
        r ≤ (start_of_current_line d pos).1 - 1 ∧
        (∀ t, lineStartAt d t → t ≤ (start_of_current_line d pos).1 - 1 → t ≤ r)) := by
  have hls := (start_of_current_line_characterisation d pos).2.1
  have hlen := lineStartSkip0_le_length hls
  rw [start_of_prev_line_def]
  by_cases hc : (start_of_current_line d pos).1 = 0
  · rw [if_pos hc]
    refine ⟨(none, 0), rfl, by simp [hc], ?_⟩
    intro r hr
    cases hr
  · obtain ⟨r, hr, hrls, hrle, hrmax⟩ :=
      soplScan_char d ((start_of_current_line d pos).1 - 1) (by omega)
    rw [if_neg hc, hr]
    refine ⟨(some r, r), rfl, by simp [hc], ?_⟩
    intro r' hr'
    simp only [Option.some.injEq] at hr'
    subst hr'
    exact ⟨rfl, hrls, hrle, hrmax⟩

/-- **C7, counterexample to the claim as stated.**  In the two-byte file
`"aa"` the starting position 1 is not offset 0, yet `start_of_prev_line`
returns `none`: it returns `none` for every position within the first line,
not only when already at offset 0. -/
theorem start_of_prev_line_none_inside_first_line :
    start_of_prev_line [97, 97] 1 = some (none, 0) ∧ (1 : Nat) ≠ 0 := by
  decide

theorem bSoclScan_eq (d : List Nat) : ∀ p, bSoclScan d p = soclScan d p := by
  intro p
  induction p with
  | zero => rfl
  | succ n ih =>
    simp only [bSoclScan, soclScan]
    rw [ih]

theorem bSoplScan_eq (d : List Nat) : ∀ p, bSoplScan d p = soplScan d p := by
  intro p
  induction p with
  | zero => rfl
  | succ n ih =>
    simp only [bSoplScan, soplScan]
    rw [ih]

theorem bSnlGo_eq (d : List Nat) : ∀ k pos, bSnlGo d k pos = snlGo d k pos := by
  intro k
  induction k with
  | zero => intro pos; rfl
  | succ n ih =>
    intro pos
    simp only [bSnlGo, snlGo]
    rw [ih]

/-- **C9.**  The three line-boundary helpers that `bsearch.rs` defines
privately (`seek_start_of_next_line`, `seek_start_of_prev_line`,
`seek_start_of_current_line`) are extensionally equal to the public cursor
primitives of `seek.rs` (`start_of_next_line`, `start_of_prev_line`,
`start_of_current_line`): on every stream contents and position they return
the same result and the same final stream position. -/
theorem bsearch_helpers_eq_seek_primitives (d : List Nat) (pos : Nat) :
    seek_start_of_next_line d pos = start_of_next_line d pos ∧
    seek_start_of_prev_line d pos = start_of_prev_line d pos ∧
    seek_start_of_current_line d pos = start_of_current_line d pos := by
  have hcur : seek_start_of_current_line d pos = start_of_current_line d pos := by
    unfold seek_start_of_current_line start_of_current_line
    rw [bSoclScan_eq, bSoclScan_eq]
  refine ⟨?_, ?_, hcur⟩
  · unfold seek_start_of_next_line start_of_next_line
    rw [bSnlGo_eq]
  · rw [seek_start_of_prev_line_def, start_of_prev_line_def, hcur, bSoplScan_eq]

/-! ### Positional lemmas

The scans are characterised on byte ranges: skipping over a line-feed-free
range, and stopping at a line feed.  `L` plays the role of a known line
start. -/

theorem getElem?_append_mid (pre mid rest : List Nat) (i : Nat)
    (h1 : pre.length ≤ i) (h2 : i < pre.length + mid.length) :
    (pre ++ (mid ++ rest))[i]? = mid[i - pre.length]? := by
  rw [List.getElem?_append_right h1, List.getElem?_append_left (by omega)]

theorem getElem?_append_mid_mem {pre mid rest : List Nat} {i b : Nat}
    (h1 : pre.length ≤ i) (h2 : i < pre.length + mid.length)
    (hb : (pre ++ (mid ++ rest))[i]? = some b) : b ∈ mid := by
  rw [getElem?_append_mid pre mid rest i h1 h2] at hb
  exact List.getElem?_mem hb

theorem socl_skip (d : List Nat) :
    ∀ k p, (∀ i, p < i → i ≤ p + k → d[i]? ≠ some 10) →
      soclScan d (p + k) = soclScan d p := by
  intro k
  induction k with
  | zero => intro p _; rfl
  | succ n ih =>
    intro p hno
    rw [show p + (n + 1) = (p + n) + 1 from rfl]
    simp only [soclScan]
    rw [if_neg (hno (p + n + 1) (by omega) (by omega))]
    exact ih p (fun i h1 h2 => hno i h1 (by omega))

/-- The backward scan of `start_of_current_line` stops at a known line start
`L` when no line feed occurs in `[L, p]`. -/
theorem socl_run (d : List Nat) (L p : Nat) (hL : lineStartSkip0 d L) (hp : L ≤ p)
    (hno : ∀ i, L ≤ i → i ≤ p → d[i]? ≠ some 10) :
    soclScan d p = (L, L) := by
  have hskip : soclScan d p = soclScan d L := by
    rw [show p = L + (p - L) from by omega]
    exact socl_skip d (p - L) L (fun i h1 h2 => hno i (by omega) (by omega))
  rw [hskip]
  rcases hL with h0 | ⟨h2, hnl⟩
  · subst h0; rfl
  · obtain ⟨m, rfl⟩ : ∃ m, L = m + 2 := ⟨L - 2, by omega⟩
    rw [show m + 2 = (m + 1) + 1 from rfl]
    simp only [soclScan]
    rw [if_neg (hno (m + 2) (le_refl _) hp)]
    rw [show m + 2 - 1 = m + 1 by omega] at hnl
    simp only [soclScan, hnl]
    simp

/-- `start_of_current_line` at any position of the line beginning at `L`
(its bytes, or its terminating line feed) returns `L` and leaves the stream
there. -/
theorem curline_run (d : List Nat) (L p : Nat) (hL : lineStartSkip0 d L) (hp : L ≤ p)
    (hno : ∀ i, L ≤ i → i < p → d[i]? ≠ some 10) :
    start_of_current_line d p = (L, L) := by
  unfold start_of_current_line
  split
  · rename_i h10
    split
    · rename_i hz
      subst hz
      have : L = 0 := by omega
      simp [this]
    · rename_i hz
      rcases Nat.lt_or_ge L p with hlt | hge
      · exact socl_run d L (p - 1) hL (by omega) (fun i h1 h2 => hno i h1 (by omega))
      · have hLp : L = p := by omega
        subst hLp
        rcases hL with h0 | ⟨h2, hnl⟩
        · omega
        · obtain ⟨m, rfl⟩ : ∃ m, L = m + 2 := ⟨L - 2, by omega⟩
          rw [show m + 2 - 1 = m + 1 by omega]
          simp only [soclScan]
          rw [show m + 2 - 1 = m + 1 by omega] at hnl
          simp [hnl]
  · rename_i h10
    exact socl_run d L p hL hp (fun i h1 h2 => by
      rcases Nat.lt_or_ge i p with hlt | hge
      · exact hno i h1 hlt
      · have : i = p := by omega
        subst this
        exact h10)

/-- The backward scan of `start_of_prev_line` stops at a known (true) line
start `L` when every byte of `[L, p)` exists and is not a line feed. -/
theorem sopl_run (d : List Nat) (L : Nat) :
    ∀ p, lineStartAt d L → L ≤ p →
      (∀ i, L ≤ i → i < p → ∃ b, d[i]? = some b ∧ b ≠ 10) →
      soplScan d p = some (L, L) := by
  intro p
  induction p with
  | zero =>
    intro hL hp _
    have : L = 0 := by omega
    subst this
    rfl
  | succ n ih =>
    intro hL hp hex
    rcases Nat.lt_or_ge L (n + 1) with hlt | hge
    · obtain ⟨b, hb, hb10⟩ := hex n (by omega) (by omega)
      simp only [soplScan, hb]
      rw [if_neg hb10]
      exact ih hL (by omega) (fun i h1 h2 => hex i h1 (by omega))
    · have hLn : L = n + 1 := by omega
      subst hLn
      rcases hL with h0 | ⟨h1, hnl⟩
      · omega
      · simp only [Nat.add_sub_cancel] at hnl
        simp only [soplScan, hnl]
        simp

theorem snlGo_fuel (d : List Nat) :
    ∀ k k' pos, d.length - pos ≤ k → d.length - pos ≤ k' →
      snlGo d k pos = snlGo d k' pos := by
  intro k
  induction k with
  | zero =>
    intro k' pos hk hk'
    have hlen : d.length ≤ pos := by omega
    cases k' with
    | zero => rfl
    | succ m =>
      simp only [snlGo, List.getElem?_eq_none hlen]
  | succ n ih =>
    intro k' pos hk hk'
    cases k' with
    | zero =>
      have hlen : d.length ≤ pos := by omega
      simp only [snlGo, List.getElem?_eq_none hlen]
    | succ m =>
      cases hb : d[pos]? with
      | none => simp only [snlGo, hb]
      | some b =>
        have hpos := getElem?_some_lt hb
        simp only [snlGo, hb]
        by_cases hb10 : b = 10
        · rw [if_pos hb10, if_pos hb10]
        · rw [if_neg hb10, if_neg hb10]
          exact ih m (pos + 1) (by omega) (by omega)

theorem rlGo_fuel (d : List Nat) :
    ∀ k k' pos, d.length - pos ≤ k → d.length - pos ≤ k' →
      rlGo d k pos = rlGo d k' pos := by
  intro k
  induction k with
  | zero =>
    intro k' pos hk hk'
    have hlen : d.length ≤ pos := by omega
    cases k' with
    | zero => rfl
    | succ m =>
      simp only [rlGo, List.getElem?_eq_none hlen]
  | succ n ih =>
    intro k' pos hk hk'
    cases k' with
    | zero =>
      have hlen : d.length ≤ pos := by omega
      simp only [rlGo, List.getElem?_eq_none hlen]
    | succ m =>
      cases hb : d[pos]? with
      | none => simp only [rlGo, hb]
      | some b =>
        have hpos := getElem?_some_lt hb
        simp only [rlGo, hb]
        by_cases hb10 : b = 10
        · rw [if_pos hb10, if_pos hb10]
        · rw [if_neg hb10, if_neg hb10]
          rw [ih m (pos + 1) (by omega) (by omega)]

theorem snlGo_run (d : List Nat) (T : Nat) (hT : d[T]? = some 10) :
    ∀ k, ∀ p, p ≤ T → T - p < k → (∀ i, p ≤ i → i < T → d[i]? ≠ some 10) →
      snlGo d k p = (some (T + 1), T + 1) := by
  have hTlen := getElem?_some_lt hT
  intro k
  induction k with
  | zero =>
    intro p _ hk _
    omega
  | succ n ih =>
    intro p hp hk hno
    by_cases hpT : p = T
    · subst hpT
      simp only [snlGo, hT]
      simp
    · obtain ⟨b, hb⟩ : ∃ b, d[p]? = some b :=
        ⟨d[p], List.getElem?_eq_some_iff.mpr ⟨by omega, rfl⟩⟩
      have hb10 : ¬ b = 10 := by
        intro h
        subst h
        exact hno p (le_refl _) (by omega) hb
      simp only [snlGo, hb]
      rw [if_neg hb10]
      exact ih (p + 1) (by omega) (by omega) (fun i h1 h2 => hno i (by omega) h2)

/-- The forward scan of `start_of_next_line` from any position at or before
the line feed at index `T` returns the offset `T + 1` just after it. -/
theorem snl_run (d : List Nat) (T : Nat) (hT : d[T]? = some 10)
    (p : Nat) (hp : p ≤ T) (hno : ∀ i, p ≤ i → i < T → d[i]? ≠ some 10) :
    start_of_next_line d p = (some (T + 1), T + 1) := by
  have hTlen := getElem?_some_lt hT
  unfold start_of_next_line
  exact snlGo_run d T hT (d.length - p) p hp (by omega) hno

theorem rlGo_run : ∀ (cnt : List Nat) (k : Nat) (pre rest : List Nat), 10 ∉ cnt →
    cnt.length < k →
    rlGo (pre ++ (cnt ++ 10 :: rest)) k pre.length =
      (cnt ++ [10], pre.length + (cnt.length + 1)) := by
  intro cnt
  induction cnt with
  | nil =>
    intro k pre rest _ hk
    obtain ⟨m, rfl⟩ : ∃ m, k = m + 1 := ⟨k - 1, by omega⟩
    have h0 : (pre ++ ([] ++ 10 :: rest))[pre.length]? = some 10 := by
      rw [List.getElem?_append_right (le_refl _)]
      simp
    simp only [rlGo, h0]
    simp
  | cons b c' ih =>
    intro k pre rest hc hk
    obtain ⟨m, rfl⟩ : ∃ m, k = m + 1 := ⟨k - 1, by omega⟩
    have hb : (pre ++ ((b :: c') ++ 10 :: rest))[pre.length]? = some b := by
      rw [List.getElem?_append_right (le_refl _)]
      simp
    have hb10 : ¬ (b = 10) := fun h => hc (by simp [h])
    simp only [rlGo, hb]
    rw [if_neg hb10]
    have hklt : c'.length < m := by
      simp only [List.length_cons] at hk
      omega
    have ihh := ih m (pre ++ [b]) rest (fun h => hc (List.mem_cons_of_mem _ h)) hklt
    rw [show (pre ++ [b]) ++ (c' ++ 10 :: rest) = pre ++ ((b :: c') ++ 10 :: rest) by
      simp] at ihh
    rw [show (pre ++ [b]).length = pre.length + 1 by simp] at ihh
    rw [ihh]
    simp only [Prod.mk.injEq, List.cons_append, List.length_cons]
    exact ⟨trivial, by omega⟩

/-- `read_line` at the start of the line with content `c` reads `c`
followed by its line feed and leaves the stream just after it. -/
theorem rl_at (cnt pre rest : List Nat) (hc : 10 ∉ cnt) :
    read_line (pre ++ (cnt ++ 10 :: rest)) pre.length =
      (cnt ++ [10], pre.length + (cnt.length + 1)) := by
  unfold read_line
  apply rlGo_run cnt _ pre rest hc
  simp only [List.length_append, List.length_cons]
  omega

/-- `read_line` at or past end-of-file reads nothing and leaves the stream
where it was. -/
theorem rl_none (d : List Nat) (pos : Nat) (h : d.length ≤ pos) :
    read_line d pos = ([], pos) := by
  unfold read_line
  rw [show d.length - pos = 0 from by omega]
  rfl

/-! ### Bytes of structured files -/

theorem getElem?_nl (X Y Z : List Nat) (i : Nat) (hi : i = X.length + Y.length) :
    (X ++ (Y ++ 10 :: Z))[i]? = some 10 := by
  subst hi
  rw [List.getElem?_append_right (by omega)]
  rw [show X.length + Y.length - X.length = Y.length by omega]
  rw [List.getElem?_append_right (by omega)]
  simp

theorem getElem?_seg (X Y Z : List Nat) (i : Nat) (h10 : 10 ∉ Y)
    (h1 : X.length ≤ i) (h2 : i < X.length + Y.length) :
    ∃ b, (X ++ (Y ++ Z))[i]? = some b ∧ b ≠ 10 := by
  rw [getElem?_append_mid X Y Z i h1 h2]
  have hl : i - X.length < Y.length := by omega
  refine ⟨Y[i - X.length], List.getElem?_eq_some_iff.mpr ⟨hl, rfl⟩, ?_⟩
  intro h
  exact h10 (h ▸ List.getElem_mem hl)

theorem encodeF_append (xs ys : List (List Nat)) :
    encodeF (xs ++ ys) = encodeF xs ++ encodeF ys := by
  induction xs with
  | nil => rfl
  | cons l ls ih => simp [encodeF, ih]

theorem encodeF_cons (l : List Nat) (ls : List (List Nat)) :
    encodeF (l :: ls) = l ++ 10 :: encodeF ls := rfl

theorem wfLines_append_left {xs ys : List (List Nat)} (h : wfLines (xs ++ ys)) :
    wfLines xs := fun l hl => h l (List.mem_append_left _ hl)

theorem wfLines_append_right {xs ys : List (List Nat)} (h : wfLines (xs ++ ys)) :
    wfLines ys := fun l hl => h l (List.mem_append_right _ hl)

/-- The offset just after an encoded block of well-formed lines is a line
start in the code's sense (`lineStartSkip0`), whatever follows. -/
theorem encodeF_lineStartSkip0 (cs : List (List Nat)) (suf : List Nat) (h : wfLines cs) :
    lineStartSkip0 (encodeF cs ++ suf) (encodeF cs).length := by
  rcases List.eq_nil_or_concat cs with rfl | ⟨cs', l, rfl⟩
  · exact Or.inl rfl
  · simp only [List.concat_eq_append] at h ⊢
    right
    have hl := h l (by simp)
    rw [encodeF_append]
    constructor
    · simp only [List.length_append, encodeF]
      have : l.length ≥ 1 := by
        rcases l with _ | _
        · exact absurd rfl hl.1
        · simp
      simp
      omega
    · have hshape : encodeF cs' ++ encodeF [l] ++ suf =
          encodeF cs' ++ (l ++ 10 :: suf) := by
        simp [encodeF]
      rw [hshape]
      apply getElem?_nl
      simp only [encodeF_append, encodeF, List.length_append, List.length_cons,
        List.length_nil]
      omega

theorem lineStartSkip0_toAt {d : List Nat} {s : Nat} (h : lineStartSkip0 d s) :
    lineStartAt d s := by
  rcases h with h | ⟨h1, h2⟩
  · exact Or.inl h
  · exact Or.inr ⟨by omega, h2⟩

/-! ### Entry-cursor steps -/

/-- `next_entry` at the start of the line with content `l` decodes
`l ++ [10]` and leaves the stream at the start of the next line. -/
theorem next_entry_at_line (decode : Decoder) (pre l rest : List Nat) (h10 : 10 ∉ l) :
    next_entry decode (pre ++ (l ++ 10 :: rest)) pre.length =
      (match decode (l ++ [10]) with
       | .error e => .error e
       | .ok ent => .ok (some ent, pre.length + (l.length + 1))) := by
  unfold next_entry
  rw [rl_at l pre rest h10]
  simp

/-- **C4, first part (holds unconditionally).**  `next_entry` invoked at or
past end-of-file returns `none` and leaves the stream exactly one byte past
end-of-file. -/
theorem next_entry_past_eof (decode : Decoder) (d : List Nat) (pos : Nat)
    (h : d.length ≤ pos) :
    next_entry decode d pos = .ok (none, d.length + 1) := by
  unfold next_entry
  rw [rl_none d pos h]
  simp

/-- Unfolding equation for `prev_entry` with `elen` and the `let` reduced. -/
theorem prev_entry_def (decode : Decoder) (d : List Nat) (pos : Nat) :
    prev_entry decode d pos =
      (match (if pos ≤ d.length then start_of_prev_line d pos else some (none, pos)) with
       | none => .error ()
       | some (_, pos1) =>
         match start_of_prev_line d pos1 with
         | none => .error ()
         | some (none, pos2) => .ok (none, pos2)
         | some (some _, pos2) => next_entry decode d pos2) := rfl

theorem curline_at_start (d : List Nat) (P : Nat) (h : lineStartSkip0 d P) :
    start_of_current_line d P = (P, P) :=
  curline_run d P P h (le_refl _) (fun i h1 h2 => absurd h1 (by omega))

theorem start_of_prev_line_run (d : List Nat) (p P L : Nat)
    (hcur : start_of_current_line d p = (P, P)) (hP : P ≠ 0)
    (hsopl : soplScan d (P - 1) = some (L, L)) :
    start_of_prev_line d p = some (some L, L) := by
  rw [start_of_prev_line_def, hcur]
  dsimp only
  rw [if_neg hP, hsopl]

/-- `prev_entry` invoked at the end of the first line of the file returns
`none` and leaves the stream at offset 0. -/
theorem prev_entry_first (decode : Decoder) (l rest : List Nat)
    (h10 : 10 ∉ l) (hne : l ≠ []) :
    prev_entry decode (l ++ 10 :: rest) (l.length + 1) = .ok (none, 0) := by
  have hl1 : 1 ≤ l.length := List.length_pos.mpr hne
  have hF1 : (l ++ 10 :: rest)[l.length]? = some 10 := by
    have h := getElem?_nl [] l rest l.length (by simp)
    simpa using h
  have hP : lineStartSkip0 (l ++ 10 :: rest) (l.length + 1) :=
    Or.inr ⟨by omega, by rw [show l.length + 1 - 1 = l.length by omega]; exact hF1⟩
  have hcur1 := curline_at_start (l ++ 10 :: rest) (l.length + 1) hP
  have hsopl1 : soplScan (l ++ 10 :: rest) (l.length + 1 - 1) = some (0, 0) := by
    rw [show l.length + 1 - 1 = l.length by omega]
    apply sopl_run (l ++ 10 :: rest) 0 l.length (Or.inl rfl) (by omega)
    intro i h1 h2
    have h := getElem?_seg [] l (10 :: rest) i h10 (by simp) (by simpa using h2)
    simpa using h
  have hstep1 := start_of_prev_line_run (l ++ 10 :: rest) (l.length + 1) (l.length + 1) 0
    hcur1 (by omega) hsopl1
  have hcur2 := curline_at_start (l ++ 10 :: rest) 0 (Or.inl rfl)
  have hstep2 : start_of_prev_line (l ++ 10 :: rest) 0 = some (none, 0) := by
    rw [start_of_prev_line_def, hcur2]
    simp
  have hple : l.length + 1 ≤ (l ++ 10 :: rest).length := by simp
  rw [prev_entry_def, if_pos hple, hstep1]
  dsimp only
  rw [hstep2]

/-- `prev_entry` invoked at the end of a line preceded by the line `lA`
returns the entry decoded from `lA` and leaves the stream at the start of
the line it was invoked on. -/
theorem prev_entry_step (decode : Decoder) (preA lA l rest : List Nat) (e : Entry)
    (hA10 : 10 ∉ lA) (hAne : lA ≠ []) (h10 : 10 ∉ l) (hne : l ≠ [])
    (hgood : lineStartSkip0 (preA ++ (lA ++ 10 :: (l ++ 10 :: rest))) preA.length)
    (hdec : decode (lA ++ [10]) = .ok e) :
    prev_entry decode (preA ++ (lA ++ 10 :: (l ++ 10 :: rest)))
        (preA.length + lA.length + 1 + (l.length + 1)) =
      .ok (some e, preA.length + (lA.length + 1)) := by
  have hB1 : 1 ≤ lA.length := List.length_pos.mpr hAne
  have hC1 : 1 ≤ l.length := List.length_pos.mpr hne
  set d := preA ++ (lA ++ 10 :: (l ++ 10 :: rest)) with hd
  have hdlen : d.length = preA.length + lA.length + 1 + l.length + 1 + rest.length := by
    rw [hd]
    simp only [List.length_append, List.length_cons]
    omega
  have hF1 : d[preA.length + lA.length]? = some 10 :=
    getElem?_nl preA lA (l ++ 10 :: rest) _ rfl
  have hF2 : d[preA.length + lA.length + 1 + l.length]? = some 10 := by
    have h := getElem?_nl (preA ++ (lA ++ [10])) l rest
      (preA.length + lA.length + 1 + l.length) (by simp; omega)
    rw [hd]
    rw [show preA ++ (lA ++ 10 :: (l ++ 10 :: rest)) =
        (preA ++ (lA ++ [10])) ++ (l ++ 10 :: rest) by simp]
    exact h
  have hlseg : ∀ i, preA.length + lA.length + 1 ≤ i →
      i < preA.length + lA.length + 1 + l.length → ∃ b, d[i]? = some b ∧ b ≠ 10 := by
    intro i h1 h2
    have h := getElem?_seg (preA ++ (lA ++ [10])) l (10 :: rest) i h10
      (by simp; omega) (by simp; omega)
    rw [hd, show preA ++ (lA ++ 10 :: (l ++ 10 :: rest)) =
        (preA ++ (lA ++ [10])) ++ (l ++ (10 :: rest)) by simp]
    exact h
  have hAseg : ∀ i, preA.length ≤ i → i < preA.length + lA.length →
      ∃ b, d[i]? = some b ∧ b ≠ 10 := by
    intro i h1 h2
    exact getElem?_seg preA lA (10 :: (l ++ 10 :: rest)) i hA10 h1 h2
  have hP : lineStartSkip0 d (preA.length + lA.length + 1 + (l.length + 1)) := by
    refine Or.inr ⟨by omega, ?_⟩
    rw [show preA.length + lA.length + 1 + (l.length + 1) - 1 =
        preA.length + lA.length + 1 + l.length by omega]
    exact hF2
  have hcur1 := curline_at_start d _ hP
  have hsopl1 : soplScan d (preA.length + lA.length + 1 + (l.length + 1) - 1) =
      some (preA.length + lA.length + 1, preA.length + lA.length + 1) := by
    rw [show preA.length + lA.length + 1 + (l.length + 1) - 1 =
        preA.length + lA.length + 1 + l.length by omega]
    apply sopl_run d (preA.length + lA.length + 1) _ ?_ (by omega)
    · intro i h1 h2
      exact hlseg i h1 h2
    · refine Or.inr ⟨by omega, ?_⟩
      rw [show preA.length + lA.length + 1 - 1 = preA.length + lA.length by omega]
      exact hF1
  have hstep1 := start_of_prev_line_run d _ _ _ hcur1 (by omega) hsopl1
  have hP2 : lineStartSkip0 d (preA.length + lA.length + 1) := by
    refine Or.inr ⟨by omega, ?_⟩
    rw [show preA.length + lA.length + 1 - 1 = preA.length + lA.length by omega]
    exact hF1
  have hcur2 := curline_at_start d _ hP2
  have hsopl2 : soplScan d (preA.length + lA.length + 1 - 1) =
      some (preA.length, preA.length) := by
    rw [show preA.length + lA.length + 1 - 1 = preA.length + lA.length by omega]
    exact sopl_run d preA.length _ (lineStartSkip0_toAt hgood) (by omega)
      (fun i h1 h2 => hAseg i h1 h2)
  have hstep2 := start_of_prev_line_run d _ _ _ hcur2 (by omega) hsopl2
  have hnext : next_entry decode d preA.length =
      .ok (some e, preA.length + (lA.length + 1)) := by
    rw [hd, next_entry_at_line decode preA lA (l ++ 10 :: rest) hA10, hdec]
  have hple : preA.length + lA.length + 1 + (l.length + 1) ≤ d.length := by omega
  rw [prev_entry_def, if_pos hple, hstep1]
  dsimp only
  rw [hstep2]
  dsimp only
  exact hnext

/-- `prev_entry` invoked one byte past the end of a newline-terminated file
returns the entry of the last line and leaves the stream at end-of-file. -/
theorem prev_entry_past (decode : Decoder) (pre l : List Nat) (e : Entry)
    (h10 : 10 ∉ l) (hne : l ≠ [])
    (hgood : lineStartSkip0 (pre ++ (l ++ 10 :: [])) pre.length)
    (hdec : decode (l ++ [10]) = .ok e) :
    prev_entry decode (pre ++ (l ++ 10 :: []))
        ((pre ++ (l ++ 10 :: [])).length + 1) =
      .ok (some e, pre.length + (l.length + 1)) := by
  have hC1 : 1 ≤ l.length := List.length_pos.mpr hne
  set d := pre ++ (l ++ 10 :: []) with hd
  have hdlen : d.length = pre.length + l.length + 1 := by
    rw [hd]
    simp only [List.length_append, List.length_cons, List.length_nil]
    omega
  have hF1 : d[pre.length + l.length]? = some 10 :=
    getElem?_nl pre l [] _ rfl
  have hP : lineStartSkip0 d d.length := by
    refine Or.inr ⟨by omega, ?_⟩
    rw [show d.length - 1 = pre.length + l.length by omega]
    exact hF1
  have hcur1 : start_of_current_line d (d.length + 1) = (d.length, d.length) := by
    apply curline_run d d.length (d.length + 1) hP (by omega)
    intro i h1 h2
    intro hcon
    have := getElem?_some_lt hcon
    omega
  have hsopl1 : soplScan d (d.length - 1) = some (pre.length, pre.length) := by
    rw [show d.length - 1 = pre.length + l.length by omega]
    apply sopl_run d pre.length _ (lineStartSkip0_toAt hgood) (by omega)
    intro i h1 h2
    exact getElem?_seg pre l (10 :: []) i h10 h1 h2
  have hstep2 := start_of_prev_line_run d _ _ _ hcur1 (by omega) hsopl1
  have hnext : next_entry decode d pre.length =
      .ok (some e, pre.length + (l.length + 1)) := by
    rw [hd, next_entry_at_line decode pre l [] h10, hdec]
  have hgt : ¬ (d.length + 1 ≤ d.length) := by omega
  rw [prev_entry_def, if_neg hgt]
  dsimp only
  rw [hstep2]
  dsimp only
  exact hnext

/-- **C8 (amended).**  On the empty file, `len()` is 0 and preserves the
position, `next_entry` returns `none` — leaving the cursor at position 1,
one byte past end-of-file, exactly as at the end of any file — `prev_entry`
returns `none` with the cursor at 0, and `seek_to_end` likewise leaves the
cursor at position 1, not 0. -/
theorem empty_file_behaviour (decode : Decoder) :
    elen ([] : List Nat) 0 = (0, 0) ∧
    next_entry decode [] 0 = .ok (none, 1) ∧
    prev_entry decode [] 0 = .ok (none, 0) ∧
    seek_to_end decode [] 0 = .ok 1 :=
  ⟨rfl, rfl, rfl, rfl⟩

/-- **C8, counterexample to the claim as stated.**  `seek_to_end` on the
empty file leaves the cursor at position 1 (`len() + 1`), not at position 0:
`at(0)` ends in `next_entry`, whose end-of-file branch seeks to
`SeekFrom::End(1)`. -/
theorem seek_to_end_empty_leaves_cursor_past_eof :
    seek_to_end (decodeK 0) [] 0 = .ok 1 ∧ (1 : Nat) ≠ 0 :=
  ⟨rfl, by decide⟩

theorem forall₂_snoc {α β : Type} {R : α → β → Prop} :
    ∀ {cs : List α} {l : α} {es : List β},
      List.Forall₂ R (cs ++ [l]) es →
      ∃ es' e, es = es' ++ [e] ∧ List.Forall₂ R cs es' ∧ R l e := by
  intro cs
  induction cs with
  | nil =>
    intro l es h
    rcases h with _ | ⟨hRe, htl⟩
    cases htl
    exact ⟨[], _, rfl, List.Forall₂.nil, hRe⟩
  | cons c cs' ih =>
    intro l es h
    rcases h with _ | ⟨hRe, htl⟩
    obtain ⟨es', e, rfl, hF, hR⟩ := ih htl
    exact ⟨_ :: es', e, rfl, List.Forall₂.cons hRe hF, hR⟩

/-- Forward iteration over a newline-terminated block of well-formed lines
placed after an arbitrary prefix: every line is decoded in file order and
the final `none` leaves the cursor one byte past end-of-file. -/
theorem iterNext_run (decode : Decoder) :
    ∀ (cs : List (List Nat)) (es : List Entry) (pre : List Nat),
      wfLines cs →
      List.Forall₂ (fun l e => decode (l ++ [10]) = .ok e) cs es →
      iterNext decode (pre ++ encodeF cs) (cs.length + 1) pre.length =
        .ok (es, (pre ++ encodeF cs).length + 1) := by
  intro cs es pre hwf hF
  revert hwf
  induction hF generalizing pre with
  | nil =>
    intro _
    have hlen : (pre ++ encodeF []).length ≤ pre.length := by
      simp [encodeF]
    simp only [List.length_nil, iterNext, next_entry_past_eof decode _ _ hlen]
  | cons hdec htail ih =>
    intro hwf
    rename_i l e cs' es'
    have hl := hwf l (by simp)
    have hshape : pre ++ encodeF (l :: cs') = pre ++ (l ++ 10 :: encodeF cs') := by
      simp [encodeF]
    have hnext : next_entry decode (pre ++ encodeF (l :: cs')) pre.length =
        .ok (some e, pre.length + (l.length + 1)) := by
      rw [hshape, next_entry_at_line decode pre l (encodeF cs') hl.2, hdec]
    have hre : pre ++ encodeF (l :: cs') = (pre ++ (l ++ [10])) ++ encodeF cs' := by
      simp [encodeF]
    have ihh := ih (pre ++ (l ++ [10])) (@wfLines_append_right [l] _ (by simpa using hwf))
    rw [← hre] at ihh
    simp only [List.length_append, List.length_cons, List.length_nil, Nat.zero_add] at ihh
    simp only [iterNext] at ihh
    simp only [List.length_cons, iterNext, hnext, ihh, List.length_append]

/-- Backward iteration from the end of the last full line of a terminated
block: all lines but the last are decoded in reverse order, and the final
`none` leaves the cursor at 0.  Whatever follows the block begins with a
non-line-feed byte (or nothing), so the scans never leave the block. -/
theorem iterPrev_run (decode : Decoder) :
    ∀ (cs : List (List Nat)) (es : List Entry) (tail : List Nat),
      cs ≠ [] →
      wfLines cs →
      List.Forall₂ (fun l e => decode (l ++ [10]) = .ok e) cs es →
      (tail = [] ∨ ∃ b t', tail = b :: t' ∧ b ≠ 10) →
      iterPrev decode (encodeF cs ++ tail) cs.length ((encodeF cs).length) =
        .ok (es.dropLast.reverse, 0) := by
  intro cs
  induction cs using List.reverseRecOn with
  | nil => intro es tail hne _ _ _; exact absurd rfl hne
  | append_singleton cs' l ih =>
    intro es tail _ hwf hF htail
    obtain ⟨es', e, rfl, hF', hdec⟩ := forall₂_snoc hF
    have hl := hwf l (by simp)
    have hshape : encodeF (cs' ++ [l]) ++ tail = encodeF cs' ++ (l ++ 10 :: tail) := by
      rw [encodeF_append]
      simp [encodeF]
    have hlen : (encodeF (cs' ++ [l])).length = (encodeF cs').length + (l.length + 1) := by
      rw [encodeF_append]
      simp [encodeF]
    rcases List.eq_nil_or_concat cs' with rfl | ⟨cs'', lA, rfl⟩
    · have hfirst : prev_entry decode (encodeF ([] ++ [l]) ++ tail)
          ((encodeF ([] ++ [l])).length) = .ok (none, 0) := by
        rw [hshape, hlen]
        simpa [encodeF] using prev_entry_first decode l tail hl.2 hl.1
      have hF'nil : es' = [] := by
        cases hF'
        rfl
      subst hF'nil
      simp only [List.nil_append] at hfirst ⊢
      simp only [List.length_cons, List.length_nil, iterPrev, hfirst]
      simp
    · simp only [List.concat_eq_append] at *
      obtain ⟨es'', eA, rfl, hF'', hdecA⟩ := forall₂_snoc hF'
      have hlA := hwf lA (by simp)
      have hshape2 : encodeF ((cs'' ++ [lA]) ++ [l]) ++ tail =
          encodeF cs'' ++ (lA ++ 10 :: (l ++ 10 :: tail)) := by
        rw [encodeF_append, encodeF_append]
        simp [encodeF]
      have hgood : lineStartSkip0
          (encodeF cs'' ++ (lA ++ 10 :: (l ++ 10 :: tail))) (encodeF cs'').length := by
        have h := encodeF_lineStartSkip0 cs'' (lA ++ 10 :: (l ++ 10 :: tail))
          (@wfLines_append_left _ [lA] (@wfLines_append_left _ [l] (by simpa using hwf)))
        exact h
      have hstep : prev_entry decode (encodeF ((cs'' ++ [lA]) ++ [l]) ++ tail)
          ((encodeF ((cs'' ++ [lA]) ++ [l])).length) =
            .ok (some eA, (encodeF (cs'' ++ [lA])).length) := by
        rw [hshape2]
        rw [show (encodeF ((cs'' ++ [lA]) ++ [l])).length =
            (encodeF cs'').length + lA.length + 1 + (l.length + 1) by
          rw [encodeF_append, encodeF_append]
          simp [encodeF]
          omega]
        rw [show (encodeF (cs'' ++ [lA])).length = (encodeF cs'').length + (lA.length + 1) by
          rw [encodeF_append]
          simp [encodeF]]
        exact prev_entry_step decode (encodeF cs'') lA l tail eA
          hlA.2 hlA.1 hl.2 hl.1 hgood hdecA
      have htail' : (l ++ 10 :: tail) = [] ∨
          ∃ b t', (l ++ 10 :: tail) = b :: t' ∧ b ≠ 10 := by
        right
        obtain ⟨b0, l', rfl⟩ : ∃ b0 l', l = b0 :: l' := by
          rcases l with _ | ⟨b0, l'⟩
          · exact absurd rfl hl.1
          · exact ⟨b0, l', rfl⟩
        exact ⟨b0, l' ++ 10 :: tail, by simp, fun h => hl.2 (by simp [h])⟩
      have ihh := ih (es'' ++ [eA]) (l ++ 10 :: tail) (by simp)
        (@wfLines_append_left _ [l] (by simpa using hwf)) hF' htail'
      rw [← hshape] at ihh
      have hfl : (cs'' ++ [lA]).length = cs''.length + 1 := by simp
      rw [show ((cs'' ++ [lA]) ++ [l]).length = (cs'' ++ [lA]).length + 1 by simp]
      simp only [iterPrev, hstep]
      rw [ihh]
      simp

/-- **C1 (amended).**  For every file of well-formed, newline-terminated,
non-empty records all of which decode, iterating `next_entry` from position
0 until `none` yields exactly the records in file order (cursor one past
end-of-file), and iterating `prev_entry` from that end-of-file state until
`none` yields exactly their reverse (cursor at 0): forward iteration is the
reverse of backward iteration, with no record skipped or duplicated. -/
theorem forward_backward_inverse (decode : Decoder) (cs : List (List Nat)) (es : List Entry)
    (hwf : wfLines cs)
    (hF : List.Forall₂ (fun l e => decode (l ++ [10]) = .ok e) cs es) :
    iterNext decode (encodeF cs) (cs.length + 1) 0 = .ok (es, (encodeF cs).length + 1) ∧
    iterPrev decode (encodeF cs) (cs.length + 1) ((encodeF cs).length + 1) =
      .ok (es.reverse, 0) := by
  constructor
  · have h := iterNext_run decode cs es [] hwf hF
    simpa using h
  · rcases List.eq_nil_or_concat cs with rfl | ⟨cs', l, rfl⟩
    · cases hF
      rfl
    · simp only [List.concat_eq_append] at *
      obtain ⟨es', e, rfl, hF', hdec⟩ := forall₂_snoc hF
      have hl := hwf l (by simp)
      have hshape : encodeF (cs' ++ [l]) = encodeF cs' ++ (l ++ 10 :: []) := by
        rw [encodeF_append]
        simp [encodeF]
      have hgood := encodeF_lineStartSkip0 cs' (l ++ 10 :: [])
        (@wfLines_append_left _ [l] hwf)
      have hpast := prev_entry_past decode (encodeF cs') l e hl.2 hl.1 hgood hdec
      have hrun := iterPrev_run decode (cs' ++ [l]) (es' ++ [e]) [] (by simp) hwf hF
        (Or.inl rfl)
      rw [hshape] at hrun
      simp only [List.append_nil, List.length_append, List.length_cons, List.length_nil,
        Nat.zero_add] at hrun
      simp only [iterPrev] at hrun
      rw [hshape]
      simp only [List.length_append, List.length_cons, List.length_nil,
        Nat.zero_add] at hpast ⊢
      simp only [iterPrev, hpast, hrun]
      simp

/-- **C1, counterexample to the claim as stated.**  For the file `"a\nb"`,
whose final line is unterminated, forward iteration yields both records but
backward iteration from end-of-file yields only the record of the first
line: after `next_entry` parks the cursor at `len + 1`, the single backward
hop of `prev_entry` lands on the start of the previous line instead of the
start of the last (unterminated) line, so record `"b"` is skipped and
record `"a"` duplicated in its place. -/
theorem unterminated_file_breaks_inverse :
    iterNext (decodeK 0) [97, 10, 98] 3 0 =
      .ok ([⟨0, [97, 10]⟩, ⟨0, [98]⟩], 4) ∧
    iterPrev (decodeK 0) [97, 10, 98] 3 4 = .ok ([⟨0, [97, 10]⟩], 0) ∧
    ([⟨0, [97, 10]⟩, ⟨0, [98]⟩] : List Entry) ≠ List.reverse [⟨0, [97, 10]⟩] :=
  ⟨rfl, rfl, by decide⟩

/-- **C4 (amended).**  `next_entry` at or past end-of-file returns `none`
and parks the cursor at `fileLength + 1` on every file; the consequence
that a subsequent `prev_entry` lands on the true last record holds for
newline-terminated files of well-formed records. -/
theorem next_entry_eof_parks_cursor (decode : Decoder) :
    (∀ (d : List Nat) (pos : Nat), d.length ≤ pos →
      next_entry decode d pos = .ok (none, d.length + 1)) ∧
    (∀ (cs : List (List Nat)) (l : List Nat) (e : Entry), wfLines (cs ++ [l]) →
      decode (l ++ [10]) = .ok e →
      prev_entry decode (encodeF (cs ++ [l])) ((encodeF (cs ++ [l])).length + 1) =
        .ok (some e, (encodeF (cs ++ [l])).length)) := by
  refine ⟨next_entry_past_eof decode, ?_⟩
  intro cs l e hwf hdec
  have hl := hwf l (by simp)
  have hshape : encodeF (cs ++ [l]) = encodeF cs ++ (l ++ 10 :: []) := by
    rw [encodeF_append]
    simp [encodeF]
  have hgood := encodeF_lineStartSkip0 cs (l ++ 10 :: [])
    (@wfLines_append_left _ [l] hwf)
  have h := prev_entry_past decode (encodeF cs) l e hl.2 hl.1 hgood hdec
  rw [hshape]
  simp only [List.length_append, List.length_cons, List.length_nil, Nat.zero_add] at h ⊢
  exact h

/-- **C4, counterexample to the claim as stated.**  On the file `"a\nb"`
(final line unterminated) `next_entry` at end-of-file does park the cursor
at `len + 1 = 4`, but the subsequent `prev_entry` returns the record of the
first line `"a\n"` with the cursor at 2 — not the true last record `"b"`. -/
theorem prev_entry_after_eof_misses_unterminated_last :
    next_entry (decodeK 0) [97, 10, 98] 3 = .ok (none, 4) ∧
    prev_entry (decodeK 0) [97, 10, 98] 4 = .ok (some ⟨0, [97, 10]⟩, 2) ∧
    (⟨0, [97, 10]⟩ : Entry) ≠ ⟨0, [98]⟩ :=
  ⟨rfl, rfl, by decide⟩

/-- Any position strictly inside an encoded block of lines lies in one of
its lines. -/
theorem locate (cs : List (List Nat)) :
    ∀ p, p < (encodeF cs).length →
      ∃ csA l csB, cs = csA ++ l :: csB ∧ (encodeF csA).length ≤ p ∧
        p < (encodeF csA).length + l.length + 1 := by
  induction cs with
  | nil =>
    intro p hp
    simp [encodeF] at hp
  | cons l ls ih =>
    intro p hp
    by_cases hcase : p < l.length + 1
    · exact ⟨[], l, ls, rfl, by simp [encodeF], by simpa [encodeF] using hcase⟩
    · push_neg at hcase
      have hp' : p - (l.length + 1) < (encodeF ls).length := by
        simp only [encodeF, List.length_append, List.length_cons] at hp
        omega
      obtain ⟨csA, l', csB, rfl, h1, h2⟩ := ih (p - (l.length + 1)) hp'
      refine ⟨l :: csA, l', csB, rfl, ?_, ?_⟩
      · simp only [encodeF, List.length_append, List.length_cons]
        omega
      · simp only [encodeF, List.length_append, List.length_cons]
        omega

/-- `at` on a well-formed terminated file returns some record for every
position at or before the last byte. -/
theorem entry_at_some (decode : Decoder) (cs : List (List Nat)) (p sp : Nat)
    (hwf : wfLines cs) (hdecAll : ∀ l ∈ cs, ∃ e, decode (l ++ [10]) = .ok e)
    (hp : p < (encodeF cs).length) :
    ∃ e p', entry_at decode (encodeF cs) p sp = .ok (some e, p') := by
  obtain ⟨csA, l, csB, rfl, h1, h2⟩ := locate cs p hp
  have hl := hwf l (by simp)
  obtain ⟨e, hdec⟩ := hdecAll l (by simp)
  have hshape : encodeF (csA ++ l :: csB) = encodeF csA ++ (l ++ 10 :: encodeF csB) := by
    rw [show csA ++ l :: csB = csA ++ ([l] ++ csB) by simp, encodeF_append, encodeF_append]
    simp [encodeF]
  have hgood : lineStartSkip0 (encodeF (csA ++ l :: csB)) (encodeF csA).length := by
    rw [hshape]
    exact encodeF_lineStartSkip0 csA _ (@wfLines_append_left _ (l :: csB) hwf)
  have hcur : start_of_current_line (encodeF (csA ++ l :: csB)) p =
      ((encodeF csA).length, (encodeF csA).length) := by
    apply curline_run _ _ _ hgood h1
    intro i hi1 hi2
    intro hcon
    have hb : ∃ b, (encodeF (csA ++ l :: csB))[i]? = some b ∧ b ≠ 10 := by
      rw [hshape]
      exact getElem?_seg (encodeF csA) l (10 :: encodeF csB) i hl.2 hi1 (by omega)
    obtain ⟨b, hb1, hb2⟩ := hb
    rw [hcon] at hb1
    injection hb1 with hh
    exact hb2 hh.symm
  have hple : ¬ (p > (encodeF (csA ++ l :: csB)).length) := by omega
  unfold entry_at
  rw [if_neg (by simpa [elen] using hple), hcur]
  refine ⟨e, (encodeF csA).length + (l.length + 1), ?_⟩
  dsimp only
  rw [hshape, next_entry_at_line decode (encodeF csA) l (encodeF csB) hl.2, hdec]

/-- **C10.**  `rand_entry` is total exactly on non-empty files: on a
well-formed non-empty terminated file, every drawn offset in
`[0, fileLength)` snaps to some record via `at` (the `none` branch is
unreachable), while on the empty file the construction of the uniform
sampler over `[0, 0)` panics (modelled as `none`) before `at` is ever
consulted. -/
theorem rand_entry_total_iff_nonempty (decode : Decoder) (cs : List (List Nat))
    (draw sp : Nat) (hwf : wfLines cs)
    (hdecAll : ∀ l ∈ cs, ∃ e, decode (l ++ [10]) = .ok e)
    (hne : cs ≠ []) (hdraw : draw < (encodeF cs).length) :
    (∃ e p', rand_entry decode draw (encodeF cs) sp = some (.ok (some e, p'))) ∧
    (∀ (decode2 : Decoder) (draw2 sp2 : Nat),
      rand_entry decode2 draw2 ([] : List Nat) sp2 = none) := by
  constructor
  · obtain ⟨e, p', hat⟩ := entry_at_some decode cs draw sp hwf hdecAll hdraw
    refine ⟨e, p', ?_⟩
    unfold rand_entry uniformNew
    rw [if_pos (by simpa [elen] using Nat.lt_of_le_of_lt (Nat.zero_le _) hdraw)]
    rw [hat]
  · intro decode2 draw2 sp2
    rfl

theorem start_of_current_line_characterisation_witness :
    lineStartSkip0 [97, 10, 98] (start_of_current_line [97, 10, 98] 4).1 ∧
    (∀ t, lineStartSkip0 [97, 10, 98] t → t ≤ 4 →
      t ≤ (start_of_current_line [97, 10, 98] 4).1) :=
  ⟨(start_of_current_line_characterisation [97, 10, 98] 4).2.1,
   (start_of_current_line_characterisation [97, 10, 98] 4).2.2.2.1⟩

theorem start_of_prev_line_characterisation_witness :
    ∃ pr, start_of_prev_line [97, 10, 98] 4 = some pr ∧
      (pr.1 = none ↔ (start_of_current_line [97, 10, 98] 4).1 = 0) := by
  obtain ⟨pr, h1, h2, _⟩ := start_of_prev_line_characterisation [97, 10, 98] 4
  exact ⟨pr, h1, h2⟩

theorem forward_backward_inverse_witness :
    iterNext (decodeK 0) (encodeF [[97], [98]]) 3 0 =
      .ok ([⟨0, [97, 10]⟩, ⟨0, [98, 10]⟩], (encodeF [[97], [98]]).length + 1) ∧
    iterPrev (decodeK 0) (encodeF [[97], [98]]) 3 ((encodeF [[97], [98]]).length + 1) =
      .ok (List.reverse [⟨0, [97, 10]⟩, ⟨0, [98, 10]⟩], 0) :=
  forward_backward_inverse (decodeK 0) [[97], [98]] [⟨0, [97, 10]⟩, ⟨0, [98, 10]⟩]
    (by decide) (List.Forall₂.cons rfl (List.Forall₂.cons rfl List.Forall₂.nil))

theorem next_entry_eof_parks_cursor_witness :
    prev_entry (decodeK 0) (encodeF [[97], [98]]) ((encodeF [[97], [98]]).length + 1) =
      .ok (some ⟨0, [98, 10]⟩, (encodeF [[97], [98]]).length) :=
  (next_entry_eof_parks_cursor (decodeK 0)).2 [[97]] [98] ⟨0, [98, 10]⟩ (by decide) rfl

theorem rand_entry_total_iff_nonempty_witness :
    (∃ e p', rand_entry (decodeK 0) 1 (encodeF [[97], [98]]) 0 = some (.ok (some e, p'))) ∧
    (∀ (decode2 : Decoder) (draw2 sp2 : Nat),
      rand_entry decode2 draw2 ([] : List Nat) sp2 = none) :=
  rand_entry_total_iff_nonempty (decodeK 0) [[97], [98]] 1 0 (by decide)
    (fun l _ => ⟨⟨0, l ++ [10]⟩, rfl⟩) (by decide) (by decide)

/-! ### Infrastructure for the prefix binary search -/

theorem compareBytes_eq_iff : ∀ a b : List Nat, compareBytes a b = .eq ↔ a = b := by
  intro a
  induction a with
  | nil =>
    intro b
    cases b with
    | nil => simp [compareBytes]
    | cons x xs => simp [compareBytes]
  | cons x xs ih =>
    intro b
    cases b with
    | nil => simp [compareBytes]
    | cons y ys =>
      simp only [compareBytes]
      by_cases h1 : x < y
      · rw [if_pos h1]
        constructor
        · intro h; cases h
        · intro h
          injection h with h2 _
          omega
      · rw [if_neg h1]
        by_cases h2 : y < x
        · rw [if_pos h2]
          constructor
          · intro h; cases h
          · intro h
            injection h with h3 _
            omega
        · rw [if_neg h2]
          rw [ih ys]
          have hxy : x = y := by omega
          subst hxy
          simp

theorem compareBytes_lt_iff_gt : ∀ a b : List Nat,
    compareBytes a b = .lt ↔ compareBytes b a = .gt := by
  intro a
  induction a with
  | nil =>
    intro b
    cases b with
    | nil => simp [compareBytes]
    | cons x xs => simp [compareBytes]
  | cons x xs ih =>
    intro b
    cases b with
    | nil => simp [compareBytes]
    | cons y ys =>
      simp only [compareBytes]
      by_cases h1 : x < y
      · have h2 : ¬ y < x := by omega
        simp [h1, h2]
      · by_cases h2 : y < x
        · simp [h1, h2]
        · simp only [if_neg h1, if_neg h2]
          exact ih ys

theorem compareBytes_lt_of_not_gt_of_ne {a b : List Nat}
    (h1 : compareBytes a b ≠ .gt) (h2 : a ≠ b) : compareBytes a b = .lt := by
  cases hc : compareBytes a b with
  | lt => rfl
  | eq => exact absurd ((compareBytes_eq_iff a b).mp hc) h2
  | gt => exact absurd hc h1

theorem seek_curline_run (d : List Nat) (L p : Nat) (hL : lineStartSkip0 d L)
    (hp : L ≤ p) (hno : ∀ i, L ≤ i → i < p → d[i]? ≠ some 10) :
    seek_start_of_current_line d p = (L, L) := by
  have h := curline_run d L p hL hp hno
  unfold seek_start_of_current_line
  unfold start_of_current_line at h
  simp only [bSoclScan_eq]
  exact h

theorem seek_prevline_run (d : List Nat) (p P L : Nat)
    (hcur : seek_start_of_current_line d p = (P, P)) (hP : P ≠ 0)
    (hsopl : soplScan d (P - 1) = some (L, L)) :
    seek_start_of_prev_line d p = some (some L, L) := by
  rw [seek_start_of_prev_line_def, hcur]
  dsimp only
  rw [if_neg hP, bSoplScan_eq, hsopl]

theorem seek_snl_run (d : List Nat) (T : Nat) (hT : d[T]? = some 10)
    (p : Nat) (hp : p ≤ T) (hno : ∀ i, p ≤ i → i < T → d[i]? ≠ some 10) :
    seek_start_of_next_line d p = (some (T + 1), T + 1) := by
  have hTlen := getElem?_some_lt hT
  unfold seek_start_of_next_line
  rw [bSnlGo_eq]
  exact snlGo_run d T hT (d.length - p) p hp (by omega) hno

/-- Reading a query-length prefix at the start of a line that is at least as
long as the query succeeds and yields the line's compared prefix. -/
theorem readN_at_line (q pre cnt rest : List Nat) (hlen : q.length ≤ cnt.length) :
    readN (pre ++ (cnt ++ rest)) pre.length q.length = some (qpref q cnt) := by
  unfold readN qpref
  rw [if_pos (by simp; omega)]
  congr 1
  rw [List.drop_left]
  rw [List.take_append_of_le_length hlen]

theorem encodeF_length_append (xs ys : List (List Nat)) :
    (encodeF (xs ++ ys)).length = (encodeF xs).length + (encodeF ys).length := by
  rw [encodeF_append]
  simp

theorem encodeF_length_cons (l : List Nat) (ls : List (List Nat)) :
    (encodeF (l :: ls)).length = l.length + 1 + (encodeF ls).length := by
  simp [encodeF]
  omega

theorem card_le_encodeF_length (cs : List (List Nat)) :
    cs.length ≤ (encodeF cs).length := by
  induction cs with
  | nil => simp
  | cons l ls ih =>
    rw [encodeF_length_cons]
    simp only [List.length_cons]
    omega

theorem encodeF_eq_nil_iff (cs : List (List Nat)) :
    (encodeF cs).length = 0 ↔ cs = [] := by
  cases cs with
  | nil => simp [encodeF]
  | cons l ls =>
    rw [encodeF_length_cons]
    simp

/-- `locate`, refined: the line containing a position in the left part of a
two-part file lies in the left part, with its whole extent inside it. -/
theorem locate_left (csL csRest : List (List Nat)) (p : Nat)
    (hp : p < (encodeF csL).length) :
    ∃ csX lj csY, csL ++ csRest = csX ++ lj :: (csY ++ csRest) ∧
      lj ∈ csL ∧ (encodeF csX).length ≤ p ∧
      p < (encodeF csX).length + lj.length + 1 ∧
      (encodeF csX).length + lj.length + 1 ≤ (encodeF csL).length := by
  obtain ⟨csX, lj, csY, rfl, h1, h2⟩ := locate csL p hp
  refine ⟨csX, lj, csY, by simp, by simp, h1, h2, ?_⟩
  rw [encodeF_length_append, encodeF_length_cons]
  omega

/-- Well-formed search files have well-formed lines: line-feed-free and, being
at least as long as the non-empty query, non-empty. -/
theorem wfSearch_wfLines {q : List Nat} {cs : List (List Nat)} {tail : List Nat}
    (h : wfSearch q cs tail) : wfLines cs := by
  intro l hl
  obtain ⟨hq, hcs, -, -⟩ := h
  obtain ⟨h10, hlen⟩ := hcs l hl
  refine ⟨?_, h10⟩
  intro hnil
  subst hnil
  simp only [List.length_nil] at hlen
  omega

/-- Well-formedness of lines is preserved under taking any selection. -/
theorem wfLines_sub {cs cs' : List (List Nat)} (h : wfLines cs)
    (hsub : ∀ l ∈ cs', l ∈ cs) : wfLines cs' :=
  fun l hl => h l (hsub l hl)

/-- A non-empty well-formed file is longer than the query. -/
theorem encodeF_length_lower (q : List Nat) (cs : List (List Nat)) (tail : List Nat)
    (hwf : wfSearch q cs tail) (hne : cs ≠ []) :
    q.length + 1 ≤ (encodeF cs).length := by
  obtain ⟨c0, cs', rfl⟩ := List.exists_cons_of_ne_nil hne
  have hc0 := (hwf.2.1 c0 (by simp)).2
  rw [encodeF_length_cons]
  omega

/-- `read_exact` past the end of the stream fails. -/
theorem readN_none (d : List Nat) (p n : Nat) (h : d.length < p + n) :
    readN d p n = none := by
  unfold readN
  rw [if_neg (by omega)]

/-- `locate`, relative to a block prefix: the line of a position inside the
middle block of a three-part file lies in the middle block. -/
theorem locate_mid (csA csM : List (List Nat)) (p : Nat)
    (h1 : (encodeF csA).length ≤ p)
    (h2 : p < (encodeF csA).length + (encodeF csM).length) :
    ∃ u lj v, csM = u ++ lj :: v ∧
      (encodeF csA).length + (encodeF u).length ≤ p ∧
      p < (encodeF csA).length + (encodeF u).length + lj.length + 1 := by
  obtain ⟨u, lj, v, hre, hh1, hh2⟩ := locate csM (p - (encodeF csA).length) (by omega)
  exact ⟨u, lj, v, hre, by omega, by omega⟩

/-- A binary-search probe anywhere on the line `lj` (its bytes or its
terminating line feed) snaps to the line's start. -/
theorem probe_socl (d q : List Nat) (csX : List (List Nat)) (lj : List Nat)
    (csY : List (List Nat)) (tail : List Nat)
    (hd : d = encodeF (csX ++ lj :: csY) ++ tail)
    (hwfX : wfLines csX) (h10 : 10 ∉ lj) (cur : Nat)
    (h1 : (encodeF csX).length ≤ cur)
    (h2 : cur ≤ (encodeF csX).length + lj.length) :
    seek_start_of_current_line d cur = ((encodeF csX).length, (encodeF csX).length) := by
  have hshape : d = encodeF csX ++ (lj ++ 10 :: (encodeF csY ++ tail)) := by
    rw [hd, encodeF_append, encodeF_cons]
    simp
  refine seek_curline_run d _ cur ?_ h1 ?_
  · rw [hshape]
    exact encodeF_lineStartSkip0 csX (lj ++ 10 :: (encodeF csY ++ tail)) hwfX
  · intro i hi1 hi2
    obtain ⟨b, hb, hb10⟩ :=
      getElem?_seg (encodeF csX) lj (10 :: (encodeF csY ++ tail)) i h10 hi1 (by omega)
    rw [hshape, hb]
    exact fun hc => hb10 (Option.some.inj hc)

/-- A binary-search read at the start of the line `lj` yields the line's
compared prefix. -/
theorem probe_readN (d q : List Nat) (csX : List (List Nat)) (lj : List Nat)
    (csY : List (List Nat)) (tail : List Nat)
    (hd : d = encodeF (csX ++ lj :: csY) ++ tail)
    (hql : q.length ≤ lj.length) :
    readN d (encodeF csX).length q.length = some (qpref q lj) := by
  have hshape : d = encodeF csX ++ (lj ++ (10 :: (encodeF csY ++ tail))) := by
    rw [hd, encodeF_append, encodeF_cons]
    simp
  rw [hshape]
  exact readN_at_line q (encodeF csX) lj (10 :: (encodeF csY ++ tail)) hql

/-- The backward scan of the previous-line primitive, started at the last
byte of the line `x` (the position just before its terminating line feed),
stops at the start of `x`. -/
theorem sopl_at_line_end (d : List Nat) (csX : List (List Nat)) (x rest : List Nat)
    (hd : d = encodeF csX ++ (x ++ 10 :: rest)) (hwfX : wfLines csX) (h10 : 10 ∉ x) :
    soplScan d ((encodeF csX).length + x.length)
      = some ((encodeF csX).length, (encodeF csX).length) := by
  refine sopl_run d _ _ ?_ (by omega) ?_
  · rw [hd]
    exact lineStartSkip0_toAt (encodeF_lineStartSkip0 csX (x ++ 10 :: rest) hwfX)
  · intro i hi1 hi2
    obtain ⟨b, hb, hb10⟩ :=
      getElem?_seg (encodeF csX) x (10 :: rest) i h10 hi1 (by omega)
    rw [hd]
    exact ⟨b, hb, hb10⟩

/-- `locate`, shifted: the line containing a position in the right part of a
two-part file lies in the right part. -/
theorem locate_right (csL csRest : List (List Nat)) (p : Nat)
    (hp1 : (encodeF csL).length ≤ p) (hp2 : p < (encodeF (csL ++ csRest)).length) :
    ∃ csX lj csY, csL ++ csRest = (csL ++ csX) ++ lj :: csY ∧
      lj ∈ csRest ∧ (encodeF (csL ++ csX)).length ≤ p ∧
      p < (encodeF (csL ++ csX)).length + lj.length + 1 := by
  have hp' : p - (encodeF csL).length < (encodeF csRest).length := by
    rw [encodeF_length_append] at hp2
    omega
  obtain ⟨csX, lj, csY, hre, h1, h2⟩ := locate csRest (p - (encodeF csL).length) hp'
  refine ⟨csX, lj, csY, by rw [hre]; simp, by rw [hre]; simp, ?_, ?_⟩
  · rw [encodeF_length_append]
    omega
  · rw [encodeF_length_append]
    omega

/-- The backward duplicate-resolution walk of the `FirstGreaterThan` policy,
started at the line start of any member of the equal-prefix run, returns the
start of the run's first member. -/
theorem walkFirst_run (d q : List Nat) (csA csR csB : List (List Nat)) (tail : List Nat)
    (hd : d = encodeF (csA ++ csR ++ csB) ++ tail)
    (hwf : wfSearch q (csA ++ csR ++ csB) tail)
    (hA : ∀ l ∈ csA, compareBytes q (qpref q l) = Ordering.gt)
    (hR : ∀ l ∈ csR, compareBytes q (qpref q l) = Ordering.eq) :
    ∀ u r v fuel, csR = u ++ r :: v → u.length + 2 ≤ fuel →
      walkFirst d q fuel ((encodeF csA).length + (encodeF u).length)
        = some (.ok (some (encodeF csA).length)) := by
  intro u
  induction u using List.reverseRecOn with
  | nil =>
    intro r v fuel hsplit hfuel
    simp only [List.nil_append] at hsplit
    obtain ⟨f, rfl⟩ : ∃ f, fuel = f + 1 := ⟨fuel - 1, by omega⟩
    simp only [encodeF, List.length_nil, Nat.add_zero]
    simp only [walkFirst]
    by_cases hA0 : (encodeF csA).length = 0
    · rw [if_pos hA0, hA0]
    · rw [if_neg hA0]
      rcases List.eq_nil_or_concat csA with rfl | ⟨csA', la, rfl⟩
      · simp [encodeF] at hA0
      · simp only [List.concat_eq_append] at hd hwf hA hA0 ⊢
        have hwfcs := wfSearch_wfLines hwf
        have hmemr : r ∈ (csA' ++ [la]) ++ csR ++ csB := by
          rw [hsplit]; simp
        have hmemla : la ∈ (csA' ++ [la]) ++ csR ++ csB := by simp
        have hr10 : 10 ∉ r := (hwf.2.1 r hmemr).1
        have hrq : q.length ≤ r.length := (hwf.2.1 r hmemr).2
        have hlaq : q.length ≤ la.length := (hwf.2.1 la hmemla).2
        have hla10 : 10 ∉ la := (hwf.2.1 la hmemla).1
        have hd1 : d = encodeF ((csA' ++ [la]) ++ r :: (v ++ csB)) ++ tail := by
          rw [hd, hsplit]; simp
        have hcur : seek_start_of_current_line d ((encodeF (csA' ++ [la])).length + q.length)
            = ((encodeF (csA' ++ [la])).length, (encodeF (csA' ++ [la])).length) := by
          refine probe_socl d q (csA' ++ [la]) r (v ++ csB) tail hd1 ?_ hr10 _ (by omega) (by omega)
          exact wfLines_append_left (wfLines_append_left hwfcs)
        have hAlen : (encodeF (csA' ++ [la])).length
            = (encodeF csA').length + (la.length + 1) := by
          rw [encodeF_length_append, encodeF_length_cons]
          simp [encodeF]
        have hd2 : d = encodeF csA' ++ (la ++ 10 :: (encodeF (r :: (v ++ csB)) ++ tail)) := by
          rw [hd1, encodeF_append, encodeF_append]
          simp [encodeF]
        have hsopl : soplScan d ((encodeF (csA' ++ [la])).length - 1)
            = some ((encodeF csA').length, (encodeF csA').length) := by
          rw [show (encodeF (csA' ++ [la])).length - 1
              = (encodeF csA').length + la.length by omega]
          exact sopl_at_line_end d csA' la (encodeF (r :: (v ++ csB)) ++ tail) hd2
            (wfLines_sub hwfcs (by intro l hl; simp at hl ⊢; tauto)) hla10
        have hprev := seek_prevline_run d ((encodeF (csA' ++ [la])).length + q.length)
          (encodeF (csA' ++ [la])).length (encodeF csA').length hcur hA0 hsopl
        have hd3 : d = encodeF (csA' ++ la :: (r :: (v ++ csB))) ++ tail := by
          rw [hd1]; simp
        have hread := probe_readN d q csA' la (r :: (v ++ csB)) tail hd3 hlaq
        have hcmp : compareBytes q (qpref q la) = Ordering.gt := hA la (by simp)
        simp only [hprev, hread, hcmp]
  | append_singleton u' x ih =>
    intro r v fuel hsplit hfuel
    obtain ⟨f, rfl⟩ : ∃ f, fuel = f + 1 := ⟨fuel - 1, by omega⟩
    simp only [walkFirst]
    have hwfcs := wfSearch_wfLines hwf
    have hsplit' : csR = u' ++ x :: (r :: v) := by
      rw [hsplit]; simp
    have hmemr : r ∈ csA ++ csR ++ csB := by
      rw [hsplit]; simp
    have hmemx : x ∈ csA ++ csR ++ csB := by
      rw [hsplit]; simp
    have hr10 : 10 ∉ r := (hwf.2.1 r hmemr).1
    have hrq : q.length ≤ r.length := (hwf.2.1 r hmemr).2
    have hxq : q.length ≤ x.length := (hwf.2.1 x hmemx).2
    have hx10 : 10 ∉ x := (hwf.2.1 x hmemx).1
    have hulen : (encodeF (u' ++ [x])).length = (encodeF u').length + (x.length + 1) := by
      rw [encodeF_length_append, encodeF_length_cons]
      simp [encodeF]
    have hne : (encodeF csA).length + (encodeF (u' ++ [x])).length ≠ 0 := by omega
    rw [if_neg hne]
    have hd1 : d = encodeF ((csA ++ (u' ++ [x])) ++ r :: (v ++ csB)) ++ tail := by
      rw [hd, hsplit]; simp
    have hS : (encodeF (csA ++ (u' ++ [x]))).length
        = (encodeF csA).length + (encodeF (u' ++ [x])).length :=
      congrArg List.length (encodeF_append csA (u' ++ [x])) |>.trans (by simp)
    have hcur : seek_start_of_current_line d
        ((encodeF csA).length + (encodeF (u' ++ [x])).length + q.length)
        = ((encodeF csA).length + (encodeF (u' ++ [x])).length,
           (encodeF csA).length + (encodeF (u' ++ [x])).length) := by
      have := probe_socl d q (csA ++ (u' ++ [x])) r (v ++ csB) tail hd1
        (wfLines_sub hwfcs (by intro l hl; rw [hsplit]; simp at hl ⊢; tauto)) hr10
        ((encodeF csA).length + (encodeF (u' ++ [x])).length + q.length)
        (by omega) (by omega)
      rwa [hS] at this
    have hd2 : d = encodeF (csA ++ u')
        ++ (x ++ 10 :: (encodeF (r :: (v ++ csB)) ++ tail)) := by
      rw [hd1]
      simp [encodeF_append, encodeF, List.append_assoc]
    have hS' : (encodeF (csA ++ u')).length
        = (encodeF csA).length + (encodeF u').length :=
      congrArg List.length (encodeF_append csA u') |>.trans (by simp)
    have hsopl : soplScan d
        ((encodeF csA).length + (encodeF (u' ++ [x])).length - 1)
        = some ((encodeF (csA ++ u')).length, (encodeF (csA ++ u')).length) := by
      rw [show (encodeF csA).length + (encodeF (u' ++ [x])).length - 1
          = (encodeF (csA ++ u')).length + x.length by omega]
      exact sopl_at_line_end d (csA ++ u') x (encodeF (r :: (v ++ csB)) ++ tail) hd2
        (wfLines_sub hwfcs (by intro l hl; rw [hsplit]; simp at hl ⊢; tauto)) hx10
    have hprev := seek_prevline_run d
      ((encodeF csA).length + (encodeF (u' ++ [x])).length + q.length)
      ((encodeF csA).length + (encodeF (u' ++ [x])).length)
      (encodeF (csA ++ u')).length hcur hne hsopl
    have hd3 : d = encodeF ((csA ++ u') ++ x :: (r :: (v ++ csB))) ++ tail := by
      rw [hd1]; simp
    have hread := probe_readN d q (csA ++ u') x (r :: (v ++ csB)) tail hd3 hxq
    have hcmp : compareBytes q (qpref q x) = Ordering.eq := hR x (by rw [hsplit]; simp)
    simp only [hprev, hread, hcmp]
    rw [hS']
    exact ih x (r :: v) f hsplit' (by simp at hfuel; omega)

/-- The forward duplicate-resolution walk of the `LastLessThan` policy,
started at the line start of any member of the equal-prefix run with a
non-zero line start, returns the start of the run's last member. -/
theorem walkLast_run (d q : List Nat) (csA csR' : List (List Nat)) (rz : List Nat)
    (csB : List (List Nat)) (tail : List Nat)
    (hd : d = encodeF (csA ++ (csR' ++ [rz]) ++ csB) ++ tail)
    (hwf : wfSearch q (csA ++ (csR' ++ [rz]) ++ csB) tail)
    (hR : ∀ l ∈ csR' ++ [rz], compareBytes q (qpref q l) = Ordering.eq)
    (hB : ∀ l ∈ csB, compareBytes q (qpref q l) = Ordering.lt) :
    ∀ v r u fuel, csR' ++ [rz] = u ++ r :: v →
      (encodeF csA).length + (encodeF u).length ≠ 0 →
      v.length + 2 ≤ fuel →
      walkLast d q fuel ((encodeF csA).length + (encodeF u).length)
        = some (.ok (some ((encodeF csA).length + (encodeF csR').length))) := by
  intro v
  induction v with
  | nil =>
    intro r u fuel hsplit hne hfuel
    obtain ⟨h1, h2⟩ := List.append_inj' hsplit (by simp)
    subst h1
    injection h2 with h2a h2b
    subst h2a
    obtain ⟨f, rfl⟩ : ∃ f, fuel = f + 1 := ⟨fuel - 1, by omega⟩
    simp only [walkLast]
    rw [if_neg hne]
    have hmemrz : rz ∈ csA ++ (csR' ++ [rz]) ++ csB := by simp
    have hrzq : q.length ≤ rz.length := (hwf.2.1 rz hmemrz).2
    have hrz10 : 10 ∉ rz := (hwf.2.1 rz hmemrz).1
    have hq : 1 ≤ q.length := hwf.1
    have htail : tail.length < q.length := hwf.2.2.2
    have hd2 : d = encodeF (csA ++ csR') ++ (rz ++ 10 :: (encodeF csB ++ tail)) := by
      rw [hd]
      simp [encodeF_append, encodeF, List.append_assoc]
    have hXlen : (encodeF (csA ++ csR')).length
        = (encodeF csA).length + (encodeF csR').length := by
      rw [encodeF_length_append]
    have hT : d[(encodeF csA).length + (encodeF csR').length + rz.length]? = some 10 := by
      rw [hd2]
      exact getElem?_nl (encodeF (csA ++ csR')) rz (encodeF csB ++ tail) _
        (by rw [hXlen])
    have hsnl := seek_snl_run d ((encodeF csA).length + (encodeF csR').length + rz.length)
      hT ((encodeF csA).length + (encodeF csR').length + q.length) (by omega) ?hno
    case hno =>
      intro i hi1 hi2
      obtain ⟨b, hb, hb10⟩ := getElem?_seg (encodeF (csA ++ csR')) rz
        (10 :: (encodeF csB ++ tail)) i hrz10 (by rw [hXlen]; omega) (by rw [hXlen]; omega)
      rw [hd2, hb]
      exact fun hc => hb10 (Option.some.inj hc)
    simp only [hsnl]
    rcases csB with _ | ⟨c0, csB2⟩
    · have hdlen : d.length
          = (encodeF csA).length + (encodeF csR').length + rz.length + 1 + tail.length := by
        rw [hd]
        simp [encodeF_length_append, encodeF_length_cons, encodeF]
        omega
      have hre : readN d ((encodeF csA).length + (encodeF csR').length + rz.length + 1)
          q.length = none := readN_none d _ _ (by omega)
      simp only [hre]
    · have hmemc0 : c0 ∈ csA ++ (csR' ++ [rz]) ++ (c0 :: csB2) := by simp
      have hc0q : q.length ≤ c0.length := (hwf.2.1 c0 hmemc0).2
      have hd3 : d = encodeF ((csA ++ (csR' ++ [rz])) ++ c0 :: csB2) ++ tail := by
        rw [hd]
      have hread := probe_readN d q (csA ++ (csR' ++ [rz])) c0 csB2 tail hd3 hc0q
      have hXlen2 : (encodeF (csA ++ (csR' ++ [rz]))).length
          = (encodeF csA).length + (encodeF csR').length + rz.length + 1 := by
        rw [encodeF_length_append, encodeF_length_append, encodeF_length_cons]
        simp only [encodeF, List.length_nil]
        omega
      rw [hXlen2] at hread
      have hcmp : compareBytes q (qpref q c0) = Ordering.lt := hB c0 (by simp)
      simp only [hread, hcmp]
  | cons x v2 ih =>
    intro r u fuel hsplit hne hfuel
    obtain ⟨f, rfl⟩ : ∃ f, fuel = f + 1 := ⟨fuel - 1, by omega⟩
    simp only [walkLast]
    rw [if_neg hne]
    have hd' := hd
    rw [hsplit] at hd'
    have hmemr : r ∈ csA ++ (csR' ++ [rz]) ++ csB := by
      rw [hsplit]
      simp
    have hmemx : x ∈ csA ++ (csR' ++ [rz]) ++ csB := by
      rw [hsplit]
      simp
    have hrq : q.length ≤ r.length := (hwf.2.1 r hmemr).2
    have hr10 : 10 ∉ r := (hwf.2.1 r hmemr).1
    have hxq : q.length ≤ x.length := (hwf.2.1 x hmemx).2
    have hq : 1 ≤ q.length := hwf.1
    have hd2 : d = encodeF (csA ++ u)
        ++ (r ++ 10 :: (encodeF (x :: (v2 ++ csB)) ++ tail)) := by
      rw [hd']
      simp [encodeF_append, encodeF, List.append_assoc]
    have hXlen : (encodeF (csA ++ u)).length
        = (encodeF csA).length + (encodeF u).length := by
      rw [encodeF_length_append]
    have hT : d[(encodeF csA).length + (encodeF u).length + r.length]? = some 10 := by
      rw [hd2]
      exact getElem?_nl (encodeF (csA ++ u)) r (encodeF (x :: (v2 ++ csB)) ++ tail) _
        (by rw [hXlen])
    have hsnl := seek_snl_run d ((encodeF csA).length + (encodeF u).length + r.length)
      hT ((encodeF csA).length + (encodeF u).length + q.length) (by omega) ?hno
    case hno =>
      intro i hi1 hi2
      obtain ⟨b, hb, hb10⟩ := getElem?_seg (encodeF (csA ++ u)) r
        (10 :: (encodeF (x :: (v2 ++ csB)) ++ tail)) i hr10
        (by rw [hXlen]; omega) (by rw [hXlen]; omega)
      rw [hd2, hb]
      exact fun hc => hb10 (Option.some.inj hc)
    simp only [hsnl]
    have hd3 : d = encodeF ((csA ++ (u ++ [r])) ++ x :: (v2 ++ csB)) ++ tail := by
      rw [hd']
      simp
    have hread := probe_readN d q (csA ++ (u ++ [r])) x (v2 ++ csB) tail hd3 hxq
    have hXlen3 : (encodeF (csA ++ (u ++ [r]))).length
        = (encodeF csA).length + (encodeF u).length + r.length + 1 := by
      rw [encodeF_length_append, encodeF_length_append, encodeF_length_cons]
      simp only [encodeF, List.length_nil]
      omega
    rw [hXlen3] at hread
    have hcmp : compareBytes q (qpref q x) = Ordering.eq :=
      hR x (by rw [hsplit]; simp)
    simp only [hread, hcmp]
    have hsplit2 : csR' ++ [rz] = (u ++ [r]) ++ x :: v2 := by
      rw [hsplit]
      simp
    have hulen2 : (encodeF (u ++ [r])).length = (encodeF u).length + (r.length + 1) := by
      rw [encodeF_length_append, encodeF_length_cons]
      simp only [encodeF, List.length_nil]
    have hgoal := ih x (u ++ [r]) f hsplit2 (by omega) (by simp at hfuel; omega)
    rw [show (encodeF csA).length + (encodeF u).length + r.length + 1
        = (encodeF csA).length + (encodeF (u ++ [r])).length by rw [hulen2]; omega]
    exact hgoal

/-- The binary-search loop of `bsearch.rs::seek` on a sorted file containing
an equal-prefix run always terminates through the `Equal` branch; under
`FirstGreaterThan` it returns the start of the run's first member. -/
theorem seekLoop_first_run (d q : List Nat) (csA csR csB : List (List Nat)) (tail : List Nat)
    (hd : d = encodeF (csA ++ csR ++ csB) ++ tail)
    (hwf : wfSearch q (csA ++ csR ++ csB) tail)
    (hA : ∀ l ∈ csA, compareBytes q (qpref q l) = Ordering.gt)
    (hR : ∀ l ∈ csR, compareBytes q (qpref q l) = Ordering.eq)
    (hB : ∀ l ∈ csB, compareBytes q (qpref q l) = Ordering.lt)
    (hne : csR ≠ []) :
    ∀ fuel start endv sp,
      start ≤ (encodeF csA).length →
      (encodeF csA).length < endv →
      endv ≤ d.length →
      (endv - start) + (csA ++ csR ++ csB).length + 2 ≤ fuel →
      seekLoop d q SeekType.FirstGreaterThan fuel start endv sp
        = some (.ok (.inl (some (encodeF csA).length))) := by
  have hq : 1 ≤ q.length := hwf.1
  have htail : tail.length < q.length := hwf.2.2.2
  have hwfcs := wfSearch_wfLines hwf
  have hRlen : q.length + 1 ≤ (encodeF csR).length := by
    obtain ⟨r0, csR2, rfl⟩ := List.exists_cons_of_ne_nil hne
    have := (hwf.2.1 r0 (by simp)).2
    rw [encodeF_length_cons]
    omega
  have hLlen : (encodeF (csA ++ csR ++ csB)).length
      = (encodeF csA).length + (encodeF csR).length + (encodeF csB).length := by
    rw [encodeF_length_append, encodeF_length_append]
  have hdlen : d.length = (encodeF (csA ++ csR ++ csB)).length + tail.length := by
    rw [hd]; simp
  have hcsRn : csR.length ≤ (csA ++ csR ++ csB).length := by
    simp
    omega
  intro fuel
  induction fuel with
  | zero =>
    intro start endv sp _ _ _ h4
    omega
  | succ f ih =>
    intro start endv sp h1 h2 h3 hfuel
    simp only [seekLoop]
    rw [if_neg (by omega : ¬ endv ≤ start)]
    have hcurlt : start + (endv - start) / 2 < (encodeF (csA ++ csR ++ csB)).length := by
      omega
    rcases Nat.lt_or_ge (start + (endv - start) / 2) (encodeF csA).length with hreg | hreg
    · obtain ⟨csX, lj, csY, hsplit, hmem, hx1, hx2, hx3⟩ :=
        locate_left csA (csR ++ csB) (start + (endv - start) / 2) hreg
      have hcseq : csA ++ csR ++ csB = csX ++ lj :: (csY ++ (csR ++ csB)) := by
        rw [List.append_assoc, hsplit]
      have hdX : d = encodeF (csX ++ lj :: (csY ++ (csR ++ csB))) ++ tail := by
        rw [hd, hcseq]
      have hmemcs : lj ∈ csA ++ csR ++ csB :=
        List.mem_append_left _ (List.mem_append_left _ hmem)
      have hljq : q.length ≤ lj.length := (hwf.2.1 lj hmemcs).2
      have hlj10 : 10 ∉ lj := (hwf.2.1 lj hmemcs).1
      have hwfX : wfLines csX :=
        wfLines_sub hwfcs (by intro l hl; rw [hcseq]; simp [hl])
      have hcur := probe_socl d q csX lj (csY ++ (csR ++ csB)) tail hdX hwfX hlj10
        (start + (endv - start) / 2) hx1 (by omega)
      have hread := probe_readN d q csX lj (csY ++ (csR ++ csB)) tail hdX hljq
      have hcmp : compareBytes q (qpref q lj) = Ordering.gt := hA lj hmem
      simp only [hcur, hread, hcmp]
      exact ih (start + (endv - start) / 2 + 1) endv ((encodeF csX).length + q.length)
        (by omega) h2 h3 (by omega)
    · rcases Nat.lt_or_ge (start + (endv - start) / 2)
        ((encodeF csA).length + (encodeF csR).length) with hreg2 | hreg2
      · obtain ⟨u, lj, v, hsplitR, hu1, hu2⟩ :=
          locate_mid csA csR (start + (endv - start) / 2) hreg hreg2
        have hcseq : csA ++ csR ++ csB = (csA ++ u) ++ lj :: (v ++ csB) := by
          rw [hsplitR]; simp
        have hdX : d = encodeF ((csA ++ u) ++ lj :: (v ++ csB)) ++ tail := by
          rw [hd, hcseq]
        have hmemcs : lj ∈ csA ++ csR ++ csB := by rw [hcseq]; simp
        have hljq : q.length ≤ lj.length := (hwf.2.1 lj hmemcs).2
        have hlj10 : 10 ∉ lj := (hwf.2.1 lj hmemcs).1
        have hwfX : wfLines (csA ++ u) :=
          wfLines_sub hwfcs (by intro l hl; rw [hcseq]; simp at hl ⊢; tauto)
        have hS : (encodeF (csA ++ u)).length
            = (encodeF csA).length + (encodeF u).length := by
          rw [encodeF_length_append]
        have hcur := probe_socl d q (csA ++ u) lj (v ++ csB) tail hdX hwfX hlj10
          (start + (endv - start) / 2) (by omega) (by omega)
        have hread := probe_readN d q (csA ++ u) lj (v ++ csB) tail hdX hljq
        have hcmp : compareBytes q (qpref q lj) = Ordering.eq :=
          hR lj (by rw [hsplitR]; simp)
        simp only [hcur, hread, hcmp]
        have hulen : u.length < csR.length := by rw [hsplitR]; simp
        have hwalk := walkFirst_run d q csA csR csB tail hd hwf hA hR u lj v (f + 1)
          hsplitR (by omega)
        rw [hS, hwalk]
        rfl
      · obtain ⟨csX, lj, csY, hsplit, hmem, hx1, hx2⟩ :=
          locate_right (csA ++ csR) csB (start + (endv - start) / 2)
            (by rw [encodeF_length_append]; omega) hcurlt
        have hdX : d = encodeF (((csA ++ csR) ++ csX) ++ lj :: csY) ++ tail := by
          rw [hd, hsplit]
        have hmemcs : lj ∈ csA ++ csR ++ csB := List.mem_append_right _ hmem
        have hljq : q.length ≤ lj.length := (hwf.2.1 lj hmemcs).2
        have hlj10 : 10 ∉ lj := (hwf.2.1 lj hmemcs).1
        have hwfX : wfLines ((csA ++ csR) ++ csX) :=
          wfLines_sub hwfcs (by intro l hl; rw [hsplit]; simp at hl ⊢; tauto)
        have hcur := probe_socl d q ((csA ++ csR) ++ csX) lj csY tail hdX hwfX hlj10
          (start + (endv - start) / 2) hx1 (by omega)
        have hread := probe_readN d q ((csA ++ csR) ++ csX) lj csY tail hdX hljq
        have hcmp : compareBytes q (qpref q lj) = Ordering.lt := hB lj hmem
        simp only [hcur, hread, hcmp]
        rw [if_neg (by omega : ¬ start + (endv - start) / 2 = 0)]
        exact ih start (start + (endv - start) / 2 - 1)
          ((encodeF ((csA ++ csR) ++ csX)).length + q.length)
          h1 (by omega) (by omega) (by omega)

/-- The binary-search loop of `bsearch.rs::seek` on a sorted file containing
an equal-prefix run that does not start at offset 0; under `LastLessThan` it
returns the start of the run's last member. -/
theorem seekLoop_last_run (d q : List Nat) (csA csR' : List (List Nat)) (rz : List Nat)
    (csB : List (List Nat)) (tail : List Nat)
    (hd : d = encodeF (csA ++ (csR' ++ [rz]) ++ csB) ++ tail)
    (hwf : wfSearch q (csA ++ (csR' ++ [rz]) ++ csB) tail)
    (hA : ∀ l ∈ csA, compareBytes q (qpref q l) = Ordering.gt)
    (hR : ∀ l ∈ csR' ++ [rz], compareBytes q (qpref q l) = Ordering.eq)
    (hB : ∀ l ∈ csB, compareBytes q (qpref q l) = Ordering.lt)
    (hA0 : (encodeF csA).length ≠ 0) :
    ∀ fuel start endv sp,
      start ≤ (encodeF csA).length →
      (encodeF csA).length < endv →
      endv ≤ d.length →
      (endv - start) + (csA ++ (csR' ++ [rz]) ++ csB).length + 2 ≤ fuel →
      seekLoop d q SeekType.LastLessThan fuel start endv sp
        = some (.ok (.inl (some ((encodeF csA).length + (encodeF csR').length)))) := by
  have hq : 1 ≤ q.length := hwf.1
  have htail : tail.length < q.length := hwf.2.2.2
  have hwfcs := wfSearch_wfLines hwf
  have hRlen : q.length + 1 ≤ (encodeF (csR' ++ [rz])).length := by
    have := (hwf.2.1 rz (by simp)).2
    rw [encodeF_length_append, encodeF_length_cons]
    simp only [encodeF, List.length_nil]
    omega
  have hLlen : (encodeF (csA ++ (csR' ++ [rz]) ++ csB)).length
      = (encodeF csA).length + (encodeF (csR' ++ [rz])).length + (encodeF csB).length := by
    rw [encodeF_length_append, encodeF_length_append]
  have hdlen : d.length = (encodeF (csA ++ (csR' ++ [rz]) ++ csB)).length + tail.length := by
    rw [hd]; simp
  have hcsRn : (csR' ++ [rz]).length ≤ (csA ++ (csR' ++ [rz]) ++ csB).length := by
    simp
    omega
  intro fuel
  induction fuel with
  | zero =>
    intro start endv sp _ _ _ h4
    omega
  | succ f ih =>
    intro start endv sp h1 h2 h3 hfuel
    simp only [seekLoop]
    rw [if_neg (by omega : ¬ endv ≤ start)]
    have hcurlt : start + (endv - start) / 2
        < (encodeF (csA ++ (csR' ++ [rz]) ++ csB)).length := by
      omega
    rcases Nat.lt_or_ge (start + (endv - start) / 2) (encodeF csA).length with hreg | hreg
    · obtain ⟨csX, lj, csY, hsplit, hmem, hx1, hx2, hx3⟩ :=
        locate_left csA ((csR' ++ [rz]) ++ csB) (start + (endv - start) / 2) hreg
      have hcseq : csA ++ (csR' ++ [rz]) ++ csB
          = csX ++ lj :: (csY ++ ((csR' ++ [rz]) ++ csB)) := by
        rw [List.append_assoc, hsplit]
      have hdX : d = encodeF (csX ++ lj :: (csY ++ ((csR' ++ [rz]) ++ csB))) ++ tail := by
        rw [hd, hcseq]
      have hmemcs : lj ∈ csA ++ (csR' ++ [rz]) ++ csB :=
        List.mem_append_left _ (List.mem_append_left _ hmem)
      have hljq : q.length ≤ lj.length := (hwf.2.1 lj hmemcs).2
      have hlj10 : 10 ∉ lj := (hwf.2.1 lj hmemcs).1
      have hwfX : wfLines csX :=
        wfLines_sub hwfcs (by intro l hl; rw [hcseq]; simp [hl])
      have hcur := probe_socl d q csX lj (csY ++ ((csR' ++ [rz]) ++ csB)) tail hdX hwfX hlj10
        (start + (endv - start) / 2) hx1 (by omega)
      have hread := probe_readN d q csX lj (csY ++ ((csR' ++ [rz]) ++ csB)) tail hdX hljq
      have hcmp : compareBytes q (qpref q lj) = Ordering.gt := hA lj hmem
      simp only [hcur, hread, hcmp]
      exact ih (start + (endv - start) / 2 + 1) endv ((encodeF csX).length + q.length)
        (by omega) h2 h3 (by omega)
    · rcases Nat.lt_or_ge (start + (endv - start) / 2)
        ((encodeF csA).length + (encodeF (csR' ++ [rz])).length) with hreg2 | hreg2
      · obtain ⟨u, lj, v, hsplitR, hu1, hu2⟩ :=
          locate_mid csA (csR' ++ [rz]) (start + (endv - start) / 2) hreg hreg2
        have hcseq : csA ++ (csR' ++ [rz]) ++ csB = (csA ++ u) ++ lj :: (v ++ csB) := by
          rw [hsplitR]; simp
        have hdX : d = encodeF ((csA ++ u) ++ lj :: (v ++ csB)) ++ tail := by
          rw [hd, hcseq]
        have hmemcs : lj ∈ csA ++ (csR' ++ [rz]) ++ csB := by rw [hcseq]; simp
        have hljq : q.length ≤ lj.length := (hwf.2.1 lj hmemcs).2
        have hlj10 : 10 ∉ lj := (hwf.2.1 lj hmemcs).1
        have hwfX : wfLines (csA ++ u) :=
          wfLines_sub hwfcs (by intro l hl; rw [hcseq]; simp at hl ⊢; tauto)
        have hS : (encodeF (csA ++ u)).length
            = (encodeF csA).length + (encodeF u).length := by
          rw [encodeF_length_append]
        have hcur := probe_socl d q (csA ++ u) lj (v ++ csB) tail hdX hwfX hlj10
          (start + (endv - start) / 2) (by omega) (by omega)
        have hread := probe_readN d q (csA ++ u) lj (v ++ csB) tail hdX hljq
        have hcmp : compareBytes q (qpref q lj) = Ordering.eq :=
          hR lj (by rw [hsplitR]; simp)
        simp only [hcur, hread, hcmp]
        have hvlen : v.length < (csR' ++ [rz]).length := by
          rw [hsplitR]
          simp only [List.length_append, List.length_cons]
          omega
        have hwalk := walkLast_run d q csA csR' rz csB tail hd hwf hR hB v lj u (f + 1)
          hsplitR (by omega) (by omega)
        rw [hS, hwalk]
        rfl
      · obtain ⟨csX, lj, csY, hsplit, hmem, hx1, hx2⟩ :=
          locate_right (csA ++ (csR' ++ [rz])) csB (start + (endv - start) / 2)
            (by rw [encodeF_length_append]; omega) hcurlt
        have hdX : d = encodeF (((csA ++ (csR' ++ [rz])) ++ csX) ++ lj :: csY) ++ tail := by
          rw [hd, hsplit]
        have hmemcs : lj ∈ csA ++ (csR' ++ [rz]) ++ csB := List.mem_append_right _ hmem
        have hljq : q.length ≤ lj.length := (hwf.2.1 lj hmemcs).2
        have hlj10 : 10 ∉ lj := (hwf.2.1 lj hmemcs).1
        have hwfX : wfLines ((csA ++ (csR' ++ [rz])) ++ csX) :=
          wfLines_sub hwfcs (by intro l hl; rw [hsplit]; simp at hl ⊢; tauto)
        have hcur := probe_socl d q ((csA ++ (csR' ++ [rz])) ++ csX) lj csY tail hdX hwfX
          hlj10 (start + (endv - start) / 2) hx1 (by omega)
        have hread := probe_readN d q ((csA ++ (csR' ++ [rz])) ++ csX) lj csY tail hdX hljq
        have hcmp : compareBytes q (qpref q lj) = Ordering.lt := hB lj hmem
        simp only [hcur, hread, hcmp]
        rw [if_neg (by omega : ¬ start + (endv - start) / 2 = 0)]
        exact ih start (start + (endv - start) / 2 - 1)
          ((encodeF ((csA ++ (csR' ++ [rz])) ++ csX)).length + q.length)
          h1 (by omega) (by omega) (by omega)

/-- When the query is lexicographically below every line of a non-empty
sorted file, the binary-search loop drives `end` down to 0 and falls through
to the post-loop dispatch. -/
theorem seekLoop_all_lt (d q : List Nat) (cs : List (List Nat)) (tail : List Nat)
    (hd : d = encodeF cs ++ tail) (hwf : wfSearch q cs tail)
    (hlt : ∀ l ∈ cs, compareBytes q (qpref q l) = Ordering.lt)
    (hne : cs ≠ []) :
    ∀ fuel endv sp, endv ≤ d.length → endv + 2 ≤ fuel →
      ∃ sp2, seekLoop d q SeekType.FirstGreaterThan fuel 0 endv sp
        = some (.ok (.inr (0, sp2))) := by
  have hq : 1 ≤ q.length := hwf.1
  have htail : tail.length < q.length := hwf.2.2.2
  have hwfcs := wfSearch_wfLines hwf
  have hL : q.length + 1 ≤ (encodeF cs).length := encodeF_length_lower q cs tail hwf hne
  have hdlen : d.length = (encodeF cs).length + tail.length := by rw [hd]; simp
  intro fuel
  induction fuel with
  | zero =>
    intro endv sp _ h
    omega
  | succ f ih =>
    intro endv sp h3 hfuel
    by_cases h0 : endv = 0
    · subst h0
      refine ⟨sp, ?_⟩
      simp only [seekLoop]
      rw [if_pos (by omega)]
    · simp only [seekLoop]
      rw [if_neg (by omega : ¬ endv ≤ 0)]
      simp only [Nat.sub_zero, Nat.zero_add]
      have hcurlt : endv / 2 < (encodeF cs).length := by omega
      obtain ⟨csX, lj, csY, hsplit, hx1, hx2⟩ := locate cs (endv / 2) hcurlt
      have hdX : d = encodeF (csX ++ lj :: csY) ++ tail := by rw [hd, hsplit]
      have hmemcs : lj ∈ cs := by rw [hsplit]; simp
      have hljq : q.length ≤ lj.length := (hwf.2.1 lj hmemcs).2
      have hlj10 : 10 ∉ lj := (hwf.2.1 lj hmemcs).1
      have hwfX : wfLines csX :=
        wfLines_sub hwfcs (by intro l hl; rw [hsplit]; simp [hl])
      have hcurp := probe_socl d q csX lj csY tail hdX hwfX hlj10 (endv / 2) hx1 (by omega)
      have hread := probe_readN d q csX lj csY tail hdX hljq
      have hcmp : compareBytes q (qpref q lj) = Ordering.lt := hlt lj hmemcs
      simp only [hcurp, hread, hcmp]
      by_cases hc0 : endv / 2 = 0
      · refine ⟨(encodeF csX).length + q.length, ?_⟩
        rw [if_pos hc0, hc0]
      · rw [if_neg hc0]
        exact ih (endv / 2 - 1) ((encodeF csX).length + q.length) (by omega) (by omega)

/-- When the query is lexicographically above every line of the file, the
binary-search loop either exits with `end` still at the file length or
probes inside the short unterminated tail, where the read fails. -/
theorem seekLoop_all_gt (d q : List Nat) (cs : List (List Nat)) (tail : List Nat)
    (hd : d = encodeF cs ++ tail) (hwf : wfSearch q cs tail)
    (hgt : ∀ l ∈ cs, compareBytes q (qpref q l) = Ordering.gt) :
    ∀ fuel start sp, start ≤ d.length → (d.length - start) + 2 ≤ fuel →
      seekLoop d q SeekType.FirstGreaterThan fuel start d.length sp
        = some (.ok (.inl none)) ∨
      ∃ sp2, seekLoop d q SeekType.FirstGreaterThan fuel start d.length sp
        = some (.ok (.inr (d.length, sp2))) := by
  have hq : 1 ≤ q.length := hwf.1
  have htail : tail.length < q.length := hwf.2.2.2
  have hwfcs := wfSearch_wfLines hwf
  have hdlen : d.length = (encodeF cs).length + tail.length := by rw [hd]; simp
  intro fuel
  induction fuel with
  | zero =>
    intro start sp _ h
    omega
  | succ f ih =>
    intro start sp h1 hfuel
    by_cases hstop : d.length ≤ start
    · right
      refine ⟨sp, ?_⟩
      simp only [seekLoop]
      rw [if_pos hstop]
    · have hcurlt : start + (d.length - start) / 2 < d.length := by omega
      by_cases hcur : start + (d.length - start) / 2 < (encodeF cs).length
      · obtain ⟨csX, lj, csY, hsplit, hx1, hx2⟩ := locate cs _ hcur
        have hdX : d = encodeF (csX ++ lj :: csY) ++ tail := by rw [hd, hsplit]
        have hmemcs : lj ∈ cs := by rw [hsplit]; simp
        have hljq : q.length ≤ lj.length := (hwf.2.1 lj hmemcs).2
        have hlj10 : 10 ∉ lj := (hwf.2.1 lj hmemcs).1
        have hwfX : wfLines csX :=
          wfLines_sub hwfcs (by intro l hl; rw [hsplit]; simp [hl])
        have hcurp := probe_socl d q csX lj csY tail hdX hwfX hlj10
          (start + (d.length - start) / 2) hx1 (by omega)
        have hread := probe_readN d q csX lj csY tail hdX hljq
        have hcmp : compareBytes q (qpref q lj) = Ordering.gt := hgt lj hmemcs
        have heq : seekLoop d q SeekType.FirstGreaterThan (f + 1) start d.length sp
            = seekLoop d q SeekType.FirstGreaterThan f
              (start + (d.length - start) / 2 + 1) d.length
              ((encodeF csX).length + q.length) := by
          simp only [seekLoop]
          rw [if_neg hstop]
          simp only [hcurp, hread, hcmp]
        rcases ih (start + (d.length - start) / 2 + 1) ((encodeF csX).length + q.length)
            (by omega) (by omega) with h | ⟨sp2, h⟩
        · exact Or.inl (heq.trans h)
        · exact Or.inr ⟨sp2, heq.trans h⟩
      · left
        have hLle : (encodeF cs).length ≤ start + (d.length - start) / 2 := by omega
        have hsocl : seek_start_of_current_line d (start + (d.length - start) / 2)
            = ((encodeF cs).length, (encodeF cs).length) := by
          refine seek_curline_run d _ _ ?_ hLle ?_
          · rw [hd]
            exact encodeF_lineStartSkip0 cs tail hwfcs
          · intro i hi1 hi2
            intro hcon
            rw [hd, List.getElem?_append_right hi1] at hcon
            have h10 : (10 : Nat) ∈ tail := by
              obtain ⟨hlt2, heq2⟩ := List.getElem?_eq_some_iff.mp hcon
              exact heq2 ▸ List.getElem_mem hlt2
            exact hwf.2.2.1 h10
        have hre : readN d (encodeF cs).length q.length = none :=
          readN_none d _ _ (by omega)
        simp only [seekLoop]
        rw [if_neg hstop]
        simp only [hsocl, hre]

/-- `seek` under `FirstGreaterThan` on a sorted file with an equal-prefix run
returns the start of the run's first member. -/
theorem seek_first_run_eq (q : List Nat) (csA csR csB : List (List Nat)) (tail : List Nat)
    (hwf : wfSearch q (csA ++ csR ++ csB) tail)
    (hA : ∀ l ∈ csA, compareBytes q (qpref q l) = Ordering.gt)
    (hR : ∀ l ∈ csR, compareBytes q (qpref q l) = Ordering.eq)
    (hB : ∀ l ∈ csB, compareBytes q (qpref q l) = Ordering.lt)
    (hne : csR ≠ []) :
    seek (encodeF (csA ++ csR ++ csB) ++ tail) q SeekType.FirstGreaterThan
      = some (.ok (some (encodeF csA).length)) := by
  have hq : 1 ≤ q.length := hwf.1
  have htail : tail.length < q.length := hwf.2.2.2
  have hRlen : q.length + 1 ≤ (encodeF csR).length := by
    obtain ⟨r0, csR2, rfl⟩ := List.exists_cons_of_ne_nil hne
    have := (hwf.2.1 r0 (by simp)).2
    rw [encodeF_length_cons]
    omega
  have hLlen : (encodeF (csA ++ csR ++ csB)).length
      = (encodeF csA).length + (encodeF csR).length + (encodeF csB).length := by
    rw [encodeF_length_append, encodeF_length_append]
  have hdlen : (encodeF (csA ++ csR ++ csB) ++ tail).length
      = (encodeF (csA ++ csR ++ csB)).length + tail.length := by simp
  have hcard := card_le_encodeF_length (csA ++ csR ++ csB)
  unfold seek
  rw [seekLoop_first_run (encodeF (csA ++ csR ++ csB) ++ tail) q csA csR csB tail rfl
    hwf hA hR hB hne
    (2 * (encodeF (csA ++ csR ++ csB) ++ tail).length + 2) 0
    (encodeF (csA ++ csR ++ csB) ++ tail).length 0
    (by omega) (by omega) (le_refl _) (by omega)]

/-- `seek` under `LastLessThan` on a sorted file with an equal-prefix run not
beginning at offset 0 returns the start of the run's last member. -/
theorem seek_last_run_eq (q : List Nat) (csA csR' : List (List Nat)) (rz : List Nat)
    (csB : List (List Nat)) (tail : List Nat)
    (hwf : wfSearch q (csA ++ (csR' ++ [rz]) ++ csB) tail)
    (hA : ∀ l ∈ csA, compareBytes q (qpref q l) = Ordering.gt)
    (hR : ∀ l ∈ csR' ++ [rz], compareBytes q (qpref q l) = Ordering.eq)
    (hB : ∀ l ∈ csB, compareBytes q (qpref q l) = Ordering.lt)
    (hAne : csA ≠ []) :
    seek (encodeF (csA ++ (csR' ++ [rz]) ++ csB) ++ tail) q SeekType.LastLessThan
      = some (.ok (some ((encodeF csA).length + (encodeF csR').length))) := by
  have hq : 1 ≤ q.length := hwf.1
  have htail : tail.length < q.length := hwf.2.2.2
  have hA0 : (encodeF csA).length ≠ 0 := fun h => hAne ((encodeF_eq_nil_iff csA).mp h)
  have hRlen : q.length + 1 ≤ (encodeF (csR' ++ [rz])).length := by
    have := (hwf.2.1 rz (by simp)).2
    rw [encodeF_length_append, encodeF_length_cons]
    simp only [encodeF, List.length_nil]
    omega
  have hLlen : (encodeF (csA ++ (csR' ++ [rz]) ++ csB)).length
      = (encodeF csA).length + (encodeF (csR' ++ [rz])).length + (encodeF csB).length := by
    rw [encodeF_length_append, encodeF_length_append]
  have hdlen : (encodeF (csA ++ (csR' ++ [rz]) ++ csB) ++ tail).length
      = (encodeF (csA ++ (csR' ++ [rz]) ++ csB)).length + tail.length := by simp
  have hcard := card_le_encodeF_length (csA ++ (csR' ++ [rz]) ++ csB)
  unfold seek
  rw [seekLoop_last_run (encodeF (csA ++ (csR' ++ [rz]) ++ csB) ++ tail) q csA csR' rz
    csB tail rfl hwf hA hR hB hA0
    (2 * (encodeF (csA ++ (csR' ++ [rz]) ++ csB) ++ tail).length + 2) 0
    (encodeF (csA ++ (csR' ++ [rz]) ++ csB) ++ tail).length 0
    (by omega) (by omega) (le_refl _) (by omega)]

/-- **C2 (code bug).**  On the single-record file `"abcd\n"` whose record
decodes with timestamp 5, `seek_to_first` with query timestamp 3 must leave
the cursor so that `next_entry` yields that record (5 ≥ 3); instead the
binary search computes `end = cur - 1` at `cur = 0`, which wraps around in
release-build `u64` arithmetic, breaks the loop past end-of-file and leaves
the cursor at offset 5, so the following `next_entry` returns `none` even
though the qualifying record exists at offset 0. -/
theorem seek_to_first_underflow_breaks_search :
    seek_to_first (decodeK 5) [97, 98, 99, 100, 10] 3 100 = .ok 5 ∧
    next_entry (decodeK 5) [97, 98, 99, 100, 10] 5 = .ok (none, 6) ∧
    entry_at (decodeK 5) [97, 98, 99, 100, 10] 0 0
      = .ok (some ⟨5, [97, 98, 99, 100, 10]⟩, 5) :=
  ⟨rfl, rfl, rfl⟩

/-- **C3 (amended).**  On a sorted well-formed file split as
`csA ++ (csR' ++ [rz]) ++ csB` around a maximal equal-prefix run
`csR' ++ [rz]` (every `csA` line compares below the query, every run line
equal, every `csB` line above), `seek` under `FirstGreaterThan` returns the
offset of the run's first member; under `LastLessThan` it returns the offset
of the run's last member provided the run does not begin at the start of the
file — when the run begins at offset 0 the early `line_start == 0` return can
yield the run's first member instead. -/
theorem seek_duplicate_run_resolution (q : List Nat) (csA csR' : List (List Nat))
    (rz : List Nat) (csB : List (List Nat)) (tail : List Nat)
    (hwf : wfSearch q (csA ++ (csR' ++ [rz]) ++ csB) tail)
    (hA : ∀ l ∈ csA, compareBytes q (qpref q l) = Ordering.gt)
    (hR : ∀ l ∈ csR' ++ [rz], compareBytes q (qpref q l) = Ordering.eq)
    (hB : ∀ l ∈ csB, compareBytes q (qpref q l) = Ordering.lt) :
    seek (encodeF (csA ++ (csR' ++ [rz]) ++ csB) ++ tail) q SeekType.FirstGreaterThan
      = some (.ok (some (encodeF csA).length)) ∧
    (csA ≠ [] →
      seek (encodeF (csA ++ (csR' ++ [rz]) ++ csB) ++ tail) q SeekType.LastLessThan
        = some (.ok (some ((encodeF csA).length + (encodeF csR').length)))) :=
  ⟨seek_first_run_eq q csA (csR' ++ [rz]) csB tail hwf hA hR hB (by simp),
   fun hAne => seek_last_run_eq q csA csR' rz csB tail hwf hA hR hB hAne⟩

/-- **C3, counterexample to the claim as stated.**  On the file
`"b\nb\nc\nc\n"` with query `"b"`, the equal-prefix run `b, b` begins at the
start of the file and its last member starts at offset 2, but `seek` under
`LastLessThan` returns offset 0 — the run's first member, not its last. -/
theorem seek_last_run_at_file_start_returns_first :
    seek (encodeF [[98], [98], [99], [99]]) [98] SeekType.LastLessThan
      = some (.ok (some 0)) ∧ (encodeF [[98]]).length = 2 :=
  ⟨rfl, rfl⟩

theorem seek_duplicate_run_resolution_witness :
    seek [97, 10, 98, 10, 98, 10, 99, 10] [98] SeekType.FirstGreaterThan
      = some (.ok (some 2)) ∧
    seek [97, 10, 98, 10, 98, 10, 99, 10] [98] SeekType.LastLessThan
      = some (.ok (some 4)) := by
  have h := seek_duplicate_run_resolution [98] [[97]] [[98]] [98] [[99]] []
    (by decide) (by decide) (by decide) (by decide)
  exact ⟨h.1, h.2 (by decide)⟩

/-- **C5 (amended).**  Under `FirstGreaterThan` on a sorted well-formed
file, `seek` returns the offset of the first member of the equal-prefix run
when some line's prefix equals the query; offset 0 when every line's prefix
is above the query (then 0 is indeed the smallest qualifying offset), and
also on the completely empty file, where no line qualifies at all; and
`none` when every line's prefix is below the query — in particular `none`
even when qualifying lines exist but no line's prefix is exactly equal, so
the "smallest qualifying offset" reading of the claim fails. -/
theorem seek_first_greater_characterisation (q : List Nat) (cs : List (List Nat))
    (tail : List Nat) (hwf : wfSearch q cs tail) :
    (∀ csA csR' rz csB, cs = csA ++ (csR' ++ [rz]) ++ csB →
        (∀ l ∈ csA, compareBytes q (qpref q l) = Ordering.gt) →
        (∀ l ∈ csR' ++ [rz], compareBytes q (qpref q l) = Ordering.eq) →
        (∀ l ∈ csB, compareBytes q (qpref q l) = Ordering.lt) →
        seek (encodeF cs ++ tail) q SeekType.FirstGreaterThan
          = some (.ok (some (encodeF csA).length))) ∧
    ((∀ l ∈ cs, compareBytes q (qpref q l) = Ordering.lt) → cs ≠ [] →
        seek (encodeF cs ++ tail) q SeekType.FirstGreaterThan = some (.ok (some 0))) ∧
    ((∀ l ∈ cs, compareBytes q (qpref q l) = Ordering.gt) → encodeF cs ++ tail ≠ [] →
        seek (encodeF cs ++ tail) q SeekType.FirstGreaterThan = some (.ok none)) ∧
    (cs = [] → tail = [] →
        seek (encodeF cs ++ tail) q SeekType.FirstGreaterThan = some (.ok (some 0))) := by
  refine ⟨?_, ?_, ?_, ?_⟩
  · intro csA csR' rz csB hcs hA hR hB
    subst hcs
    exact seek_first_run_eq q csA (csR' ++ [rz]) csB tail hwf hA hR hB (by simp)
  · intro hlt hne
    have hdlen : (encodeF cs ++ tail).length = (encodeF cs).length + tail.length := by
      simp
    obtain ⟨sp2, hloop⟩ := seekLoop_all_lt (encodeF cs ++ tail) q cs tail rfl hwf hlt hne
      (2 * (encodeF cs ++ tail).length + 2) (encodeF cs ++ tail).length 0
      (le_refl _) (by omega)
    unfold seek
    rw [hloop]
  · intro hgt hne
    have hlen0 : (encodeF cs ++ tail).length ≠ 0 := by
      intro h
      exact hne (List.length_eq_zero.mp h)
    obtain ⟨m, hm⟩ : ∃ m, (encodeF cs ++ tail).length = m + 1 :=
      ⟨(encodeF cs ++ tail).length - 1, by omega⟩
    rcases seekLoop_all_gt (encodeF cs ++ tail) q cs tail rfl hwf hgt
        (2 * (encodeF cs ++ tail).length + 2) 0 0 (by omega) (by omega)
      with hloop | ⟨sp2, hloop⟩
    · unfold seek
      rw [hloop]
    · unfold seek
      rw [hloop, hm]
      rfl
  · intro h1 h2
    subst h1
    subst h2
    rfl

/-- **C5, counterexample to the claim as stated.**  On the file `"a\nc\n"`
with query `"b"`, the line at offset 2 has prefix `"c"` which is above the
query (so 2 is the smallest qualifying offset), yet `seek` under
`FirstGreaterThan` returns `none`; and on the empty file, where no line
qualifies and the claim requires `none`, it returns offset 0. -/
theorem seek_first_skips_qualifying_line :
    seek (encodeF [[97], [99]]) [98] SeekType.FirstGreaterThan = some (.ok none) ∧
    compareBytes [98] (qpref [98] [99]) = Ordering.lt ∧
    seek (encodeF ([] : List (List Nat))) [98] SeekType.FirstGreaterThan
      = some (.ok (some 0)) :=
  ⟨rfl, rfl, rfl⟩

theorem seek_first_greater_characterisation_witness :
    seek [97, 10, 98, 10, 99, 10] [98] SeekType.FirstGreaterThan
      = some (.ok (some 2)) ∧
    seek [99, 10] [98] SeekType.FirstGreaterThan = some (.ok (some 0)) ∧
    seek [97, 10] [98] SeekType.FirstGreaterThan = some (.ok none) ∧
    seek [] [98] SeekType.FirstGreaterThan = some (.ok (some 0)) := by
  refine ⟨?_, ?_, ?_, ?_⟩
  · exact (seek_first_greater_characterisation [98] [[97], [98], [99]] [] (by decide)).1
      [[97]] [] [98] [[99]] rfl (by decide) (by decide) (by decide)
  · exact (seek_first_greater_characterisation [98] [[99]] [] (by decide)).2.1
      (by decide) (by decide)
  · exact (seek_first_greater_characterisation [98] [[97]] [] (by decide)).2.2.1
      (by decide) (by decide)
  · exact (seek_first_greater_characterisation [98] [] [] (by decide)).2.2.2 rfl rfl

end Hmm
